import Mathlib

/-!
# Verification of the `hoist` dependency-hoisting engine

This file gives a shallow embedding, in Lean 4, of the package-tree hoisting
engine (`hoist.ts`): the input cloner, the ancestor index, the candidate
finder, the hoist applier, the self checker and the output shrinker.

Object identity of the JavaScript heap is modelled with numeric node ids into
an explicit store (a list of node records); JavaScript `Map` and `Set` values
are modelled as insertion-ordered association lists, matching the iteration
order that the source relies upon.  Recursive traversals of the (possibly
cyclic) graph take an explicit fuel argument; running out of fuel is a
distinguished outcome, separate from a thrown JavaScript error.
-/

set_option autoImplicit false

namespace Hoist

abbrev PName := String

/-- Outcome of running a piece of the engine: a value, a thrown JavaScript
error (carrying a diagnostic message), or fuel exhaustion of the embedding. -/
inductive HRes (α : Type) where
  | ok : α → HRes α
  | thrown : String → HRes α
  | fuelOut : HRes α
  deriving Repr, DecidableEq

namespace HRes

def bind {α β : Type} : HRes α → (α → HRes β) → HRes β
  | ok a, f => f a
  | thrown e, _ => thrown e
  | fuelOut, _ => fuelOut

instance : Monad HRes where
  pure := ok
  bind := bind

end HRes

/-- A JavaScript `for (const x of xs)` loop whose body may mutate the
state, throw, or run out of fuel: fold the body over the snapshot of the
iterated collection, short-circuiting on abnormal exit. -/
def loopGo {σ α : Type} (step : σ → α → HRes σ) : List α → σ → HRes σ
  | [], s => .ok s
  | x :: xs, s =>
    match step s x with
    | .ok s1 => loopGo step xs s1
    | .thrown e => .thrown e
    | .fuelOut => .fuelOut

/-! ## Insertion-ordered maps and sets (JavaScript `Map` / `Set` semantics)

A JavaScript `Map` iterates entries in insertion order; `set` on an existing
key updates the value in place keeping the position; `delete` removes the
entry.  A `Set` appends on first insertion and ignores re-insertion. -/

/-- JavaScript `Map.get`: value of the unique entry with the given key. -/
def mapGet {κ α : Type} [DecidableEq κ] (m : List (κ × α)) (k : κ) : Option α :=
  match m with
  | [] => none
  | (k1, v) :: rest => if k1 = k then some v else mapGet rest k

/-- JavaScript `Map.set`: replace in place if the key is present, else append. -/
def mapSet {κ α : Type} [DecidableEq κ] (m : List (κ × α)) (k : κ) (v : α) : List (κ × α) :=
  match m with
  | [] => [(k, v)]
  | (k1, v1) :: rest => if k1 = k then (k, v) :: rest else (k1, v1) :: mapSet rest k v

/-- JavaScript `Map.delete`: remove the entry with the given key. -/
def mapDelete {κ α : Type} [DecidableEq κ] (m : List (κ × α)) (k : κ) : List (κ × α) :=
  match m with
  | [] => []
  | (k1, v1) :: rest => if k1 = k then rest else (k1, v1) :: mapDelete rest k

/-- JavaScript `Map.values()`, in insertion order. -/
def mapValues {κ α : Type} (m : List (κ × α)) : List α :=
  m.map (fun p => p.2)

/-- JavaScript `Map.has`. -/
def mapHas {κ α : Type} [DecidableEq κ] (m : List (κ × α)) (k : κ) : Bool :=
  (mapGet m k).isSome

/-- JavaScript `Set.has`. -/
def setHas {α : Type} [DecidableEq α] (s : List α) (x : α) : Bool :=
  match s with
  | [] => false
  | y :: rest => if y = x then true else setHas rest x

/-- JavaScript `Set.add`: append if absent. -/
def setAdd {α : Type} [DecidableEq α] (s : List α) (x : α) : List α :=
  if setHas s x then s else s ++ [x]

/-- JavaScript `Set.delete`: remove the element. -/
def setDelete {α : Type} [DecidableEq α] (s : List α) (x : α) : List α :=
  match s with
  | [] => []
  | y :: rest => if y = x then rest else y :: setDelete rest x

/-! ## Locators and idents (`makeLocator` / `makeIdent`) -/

/-- `makeLocator` from the source: `name + '@' + reference`. -/
def makeLocator (name reference : String) : String :=
  name ++ "@" ++ reference

/-- The characters after the first `'#'`, if any: this is
`reference.substring(reference.indexOf('#') + 1)` guarded by
`reference.indexOf('#') >= 0` in the source. -/
def afterFirstHash : List Char → Option (List Char)
  | [] => none
  | c :: rest => if c = '#' then some rest else afterFirstHash rest

/-- `makeIdent` from the source: strip the virtual part of the reference
(everything up to and including the first `'#'`) and make a locator from the
real reference. -/
def makeIdent (name reference : String) : String :=
  match afterFirstHash reference.data with
  | some rest => makeLocator name (String.mk rest)
  | none => makeLocator name reference

/-! ## Data model

`HoisterTree` / `HoisterWorkTree` objects of the source live on the
JavaScript heap and are compared by identity; we model them as records held
in explicit stores, addressed by numeric ids.  An edge of a `dependencies`
map is a pair of the map key and the id of the target node. -/

/-- `HoisterTree`: an input node.  `dependencies` holds the ids of the
children in the iteration order of the input `Set`. -/
structure INode where
  name : PName
  reference : String
  dependencies : List Nat
  peerNames : List PName
  deriving Repr, DecidableEq

/-- `Map<PackageName, HoisterWorkTree>`, with the target node by id. -/
abbrev DepMap := List (PName × Nat)

/-- An entry of a work node's `reasons` map: the rejecting root (by id) and
the reason string. -/
structure ReasonEntry where
  root : Nat
  reason : String
  deriving Repr, DecidableEq

/-- `HoisterWorkTree`: a work node. -/
structure WNode where
  name : PName
  references : List String
  ident : String
  locator : String
  dependencies : DepMap
  originalDependencies : DepMap
  hoistedDependencies : DepMap
  relayedDependencies : DepMap
  peerNames : List PName
  reasons : List (PName × ReasonEntry)
  deriving Repr, DecidableEq

/-- The heap: the caller's input nodes and the engine's work nodes.  All
mutation performed by the engine goes through `setW` / `allocW`, which touch
only the `work` component. -/
structure HS where
  inp : List INode
  work : List WNode
  deriving Repr, DecidableEq

def dummyINode : INode :=
  { name := "", reference := "", dependencies := [], peerNames := [] }

def dummyWNode : WNode :=
  { name := "", references := [], ident := "", locator := "", dependencies := [],
    originalDependencies := [], hoistedDependencies := [], relayedDependencies := [],
    peerNames := [], reasons := [] }

/-- Dereference an input node id. -/
def getI (hs : HS) (i : Nat) : INode := hs.inp.getD i dummyINode

/-- Dereference a work node id. -/
def getW (hs : HS) (i : Nat) : WNode := hs.work.getD i dummyWNode

/-- Overwrite the work node at an id (a JavaScript field mutation). -/
def setW (hs : HS) (i : Nat) (n : WNode) : HS := { hs with work := hs.work.set i n }

/-- Allocate a fresh work node, returning its id. -/
def allocW (hs : HS) (n : WNode) : HS × Nat := ({ hs with work := hs.work ++ [n] }, hs.work.length)

/-! ## Input cloner (`cloneTree`) -/

/-- The work-node literal built by `cloneTree` for an input node: references
containing the sole input reference, locator and ident from `makeLocator` /
`makeIdent`, all four dependency maps empty, the peer names copied. -/
def mkWorkNode (node : INode) : WNode :=
  { name := node.name
    references := [node.reference]
    locator := makeLocator node.name node.reference
    ident := makeIdent node.name node.reference
    dependencies := []
    originalDependencies := []
    hoistedDependencies := []
    relayedDependencies := []
    peerNames := node.peerNames
    reasons := [] }

/-- The memo of `cloneTree` (`seenNodes`): input node id to work node id. -/
abbrev CloneMemo := List (Nat × Nat)

/-- `addNode` of `cloneTree`: memoised on the input node; creates the work
node on first visit, links it under the parent's `dependencies` and
`originalDependencies`, and loops over the children
(`for (const dep of node.dependencies)`) on first visit only. -/
def cloneAddNode (fuel : Nat) (hs : HS) (memo : CloneMemo) (inId parentW : Nat) :
    HRes (HS × CloneMemo) :=
  match fuel with
  | 0 => .fuelOut
  | fuel' + 1 =>
    let node := getI hs inId
    let workNode? := mapGet memo inId
    let isSeen := workNode?.isSome
    let (hs1, memo1, wid) :=
      match workNode? with
      | some wid => (hs, memo, wid)
      | none =>
        let (hsA, wid) := allocW hs (mkWorkNode node)
        (hsA, mapSet memo inId wid, wid)
    let wname := (getW hs1 wid).name
    let parentN := getW hs1 parentW
    let hs2 := setW hs1 parentW { parentN with
        dependencies := mapSet parentN.dependencies wname wid,
        originalDependencies := mapSet parentN.originalDependencies wname wid }
    if isSeen then .ok (hs2, memo1)
    else
      loopGo (fun (s : HS × CloneMemo) d => cloneAddNode fuel' s.1 s.2 d wid)
        node.dependencies (hs2, memo1)

/-- `cloneTree`: build the root work node, then clone the children with the
root pre-seeded in the memo.  Also returns the final memo (the source's
`seenNodes`), which the theorems below quantify over. -/
def cloneTree (fuel : Nat) (hs : HS) (rootInp : Nat) : HRes (HS × Nat × CloneMemo) :=
  let rootNode := getI hs rootInp
  let (hs1, rootW) := allocW hs (mkWorkNode rootNode)
  let memo : CloneMemo := [(rootInp, rootW)]
  match loopGo (fun (s : HS × CloneMemo) d => cloneAddNode fuel s.1 s.2 d rootW)
      rootNode.dependencies (hs1, memo) with
  | .ok (hs2, memo2) => .ok (hs2, rootW, memo2)
  | .thrown e => .thrown e
  | .fuelOut => .fuelOut

/-! ## Ancestor index (`buildAncestorMap`) -/

/-- `Map<Ident, Set<Ident>>`. -/
abbrev AncestorMap := List (String × List String)

/-- `addParent` of `buildAncestorMap`: record the parent's ident in the set
for the node's ident, then loop over the non-peer children
(`for (const dep of node.dependencies.values())`) on first visit. -/
def amapAddParent (fuel : Nat) (hs : HS) (amap : AncestorMap) (seen : List Nat)
    (parentId nodeId : Nat) : HRes (AncestorMap × List Nat) :=
  match fuel with
  | 0 => .fuelOut
  | fuel' + 1 =>
    let node := getW hs nodeId
    let parentNode := getW hs parentId
    let isSeen := setHas seen nodeId
    let parents := (mapGet amap node.ident).getD []
    let amap1 := mapSet amap node.ident (setAdd parents parentNode.ident)
    if isSeen then .ok (amap1, seen)
    else
      loopGo (fun (s : AncestorMap × List Nat) depId =>
          if setHas node.peerNames (getW hs depId).name then .ok s
          else amapAddParent fuel' hs s.1 s.2 nodeId depId)
        (mapValues node.dependencies) (amap1, setAdd seen nodeId)

/-- `buildAncestorMap`: seed the seen set with the root and run the non-peer
child loop from the root. -/
def buildAncestorMap (fuel : Nat) (hs : HS) (rootW : Nat) : HRes AncestorMap :=
  let tree := getW hs rootW
  match loopGo (fun (s : AncestorMap × List Nat) depId =>
      if setHas tree.peerNames (getW hs depId).name then .ok s
      else amapAddParent fuel hs s.1 s.2 rootW depId)
    (mapValues tree.dependencies) ([], [rootW]) with
  | .ok (amap, _) => .ok amap
  | .thrown e => .thrown e
  | .fuelOut => .fuelOut

/-! ## Locator pretty printing (`prettyPrintLocator`) -/

/-- Index of the first occurrence of a character at position `start` or
later (JavaScript `indexOf(c, start)`); `i` is the index of the list head. -/
def charIndexFrom : List Char → Char → Nat → Nat → Option Nat
  | [], _, _, _ => none
  | x :: rest, c, start, i =>
    if start ≤ i ∧ x = c then some i else charIndexFrom rest c start (i + 1)

/-- Whether the pattern (second argument) is a prefix of the first argument
(JavaScript `startsWith`). -/
def startsWithChars : List Char → List Char → Bool
  | _, [] => true
  | [], _ :: _ => false
  | c :: cs, p :: ps => if c = p then startsWithChars cs ps else false

/-- The characters strictly before the next `'#'`. -/
def takeUntilHash : List Char → List Char
  | [] => []
  | c :: rest => if c = '#' then [] else c :: takeUntilHash rest

/-- `split('#')[1]`: the characters between the first `'#'` and the second
`'#'` (or the end). -/
def betweenFirstHashes (cs : List Char) : List Char :=
  match afterFirstHash cs with
  | some rest => takeUntilHash rest
  | none => []

/-- JavaScript `replace('npm:', '')`: remove the first occurrence of the
substring `npm:`. -/
def removeFirstNpm : List Char → List Char
  | [] => []
  | c :: rest =>
    if startsWithChars (c :: rest) "npm:".data then rest.drop 3
    else c :: removeFirstNpm rest

/-- `prettyPrintLocator` from the source: split the locator at the first
`'@'` from position 1; print `.` for the workspace root, strip the `npm:`
prefix and the virtual decoration from the version, and mark virtual
references with `v:`. -/
def prettyPrintLocator (locator : String) : String :=
  let cs := locator.data
  let np : String × String :=
    match charIndexFrom cs '@' 1 0 with
    | some idx => (String.mk (cs.take idx), String.mk (cs.drop (idx + 1)))
    | none => ("", locator)
  let name := np.1
  let reference := np.2
  if reference = "workspace:." then "."
  else if reference = "" then name
  else
    let refCs := reference.data
    let base :=
      match charIndexFrom refCs '#' 0 0 with
      | some i => if 0 < i then betweenFirstHashes refCs else refCs
      | none => refCs
    let version := String.mk (removeFirstNpm base)
    if startsWithChars refCs "virtual".data then "v:" ++ name ++ "@" ++ version
    else name ++ "@" ++ version

/-- JavaScript `Array.join('→')`. -/
def joinArrow : List String → String
  | [] => ""
  | [s] => s
  | s :: rest => s ++ "→" ++ joinArrow rest

/-- JavaScript `Array.join('\n')`. -/
def joinLines : List String → String
  | [] => ""
  | [s] => s
  | s :: rest => s ++ "\n" ++ joinLines rest

/-! ## Self checker (`selfCheck`) -/

/-- One entry of the `selfCheck` log, before rendering to a string. -/
inductive CheckEntry where
  /-- `broken peer promise: expected … but found …`; `found` is `none` when
  the parent's visible resolution is `undefined`. -/
  | brokenPeer (path : String) (expected : String) (found : Option String)
  /-- `broken require promise: no required dependency … found`. -/
  | requireMissing (path : String) (origLocator : String)
  /-- `broken require promise: expected …, but found: …`. -/
  | requireMismatch (path : String) (expected : String) (found : String)
  deriving Repr, DecidableEq

/-- Render a log entry exactly as the source's template literals do. -/
def renderCheckEntry : CheckEntry → String
  | .brokenPeer path expected found =>
    path ++ " - broken peer promise: expected " ++ expected ++ " but found " ++
      (match found with | some l => l | none => "undefined")
  | .requireMissing path origLocator =>
    path ++ " - broken require promise: no required dependency " ++ origLocator ++ " found"
  | .requireMismatch path expected found =>
    path ++ " - broken require promise: expected " ++ expected ++ ", but found: " ++ found

/-- The visible-dependency overlay used by `selfCheck` and by `hoistTo`:
the parent's map overlaid with the node's non-peer `dependencies` entries,
keyed by the child's `name` field. -/
def overlayNonPeerDeps (hs : HS) (peerNames : List PName) (deps : DepMap) (acc : DepMap) :
    DepMap :=
  match deps with
  | [] => acc
  | (_, depId) :: rest =>
    let depNode := getW hs depId
    if setHas peerNames depNode.name then overlayNonPeerDeps hs peerNames rest acc
    else overlayNonPeerDeps hs peerNames rest (mapSet acc depNode.name depId)

/-- The pretty-printed tree path `parents → node` used in check messages. -/
def checkTreePath (hs : HS) (parents : List Nat) (nodeId : Nat) : String :=
  joinArrow ((parents ++ [nodeId]).map (fun i => prettyPrintLocator (getW hs i).locator))

/-- The `originalDependencies` loop of `checkNode`: check each declared
dependency against the visible map, logging broken peer / require promises. -/
def checkOrigDeps (hs : HS) (node : WNode) (parentDeps dependencies : DepMap)
    (path : String) (origs : List (PName × Nat)) (log : List CheckEntry) :
    HRes (List CheckEntry) :=
  match origs with
  | [] => .ok log
  | (_, origId) :: rest =>
    let origDep := getW hs origId
    let dep? := mapGet dependencies origDep.name
    if setHas node.peerNames origDep.name then
      let parentDep? := mapGet parentDeps origDep.name
      if parentDep? ≠ dep? then
        match dep? with
        | none => .thrown "TypeError: cannot read locator of undefined"
        | some depId =>
          checkOrigDeps hs node parentDeps dependencies path rest
            (log ++ [.brokenPeer path (getW hs depId).locator
              (parentDep?.map (fun i => (getW hs i).locator))])
      else checkOrigDeps hs node parentDeps dependencies path rest log
    else
      match dep? with
      | none =>
        checkOrigDeps hs node parentDeps dependencies path rest
          (log ++ [.requireMissing path origDep.locator])
      | some depId =>
        if (getW hs depId).ident ≠ origDep.ident then
          checkOrigDeps hs node parentDeps dependencies path rest
            (log ++ [.requireMismatch path origDep.ident (getW hs depId).ident])
        else checkOrigDeps hs node parentDeps dependencies path rest log

/-- `checkNode` of `selfCheck`: memoised on node identity, cycle-guarded by
the parent stack; checks the original dependencies against the visible map
and loops over the non-peer children. -/
def checkNode (fuel : Nat) (hs : HS) (nodeId : Nat) (parentDeps : DepMap)
    (seen : List Nat) (parents : List Nat) (log : List CheckEntry) :
    HRes (List Nat × List CheckEntry) :=
  match fuel with
  | 0 => .fuelOut
  | fuel' + 1 =>
    let node := getW hs nodeId
    if setHas seen nodeId then .ok (seen, log)
    else
      let seen1 := setAdd seen nodeId
      if setHas parents nodeId then .ok (seen1, log)
      else
        let dependencies := overlayNonPeerDeps hs node.peerNames node.dependencies parentDeps
        let path := checkTreePath hs parents nodeId
        match checkOrigDeps hs node parentDeps dependencies path node.originalDependencies log with
        | .ok log1 =>
          loopGo (fun (s : List Nat × List CheckEntry) depId =>
              if setHas node.peerNames (getW hs depId).name then .ok s
              else checkNode fuel' hs depId dependencies s.1 (setAdd parents nodeId) s.2)
            (mapValues node.dependencies) (seen1, log1)
        | .thrown e => .thrown e
        | .fuelOut => .fuelOut

/-- The `selfCheck` log as a list of structured entries. -/
def selfCheckEntries (fuel : Nat) (hs : HS) (rootId : Nat) : HRes (List CheckEntry) :=
  match checkNode fuel hs rootId (getW hs rootId).dependencies [] [] [] with
  | .ok (_, log) => .ok log
  | .thrown e => .thrown e
  | .fuelOut => .fuelOut

/-- `selfCheck`: the rendered multi-line diagnostic string, empty on
success. -/
def selfCheck (fuel : Nat) (hs : HS) (rootId : Nat) : HRes String :=
  match selfCheckEntries fuel hs rootId with
  | .ok log => .ok (joinLines (log.map renderCheckEntry))
  | .thrown e => .thrown e
  | .fuelOut => .fuelOut

/-! ## Candidate finder (`getHoistCandidates`) -/

/-- JavaScript `new Set(list)`: deduplicate keeping first occurrences. -/
def setOfList {α : Type} [DecidableEq α] (l : List α) : List α :=
  l.foldl setAdd []

/-- `HoistCandidateSet`: the chosen representative node for a name, its
weight, and the recorded `(nodePath, node)` locations in insertion order
(the source stores fresh objects in a `Set`, so every `add` appends). -/
structure CandSet where
  node : Nat
  weight : Nat
  candidates : List (List Nat × Nat)
  deriving Repr, DecidableEq

abbrev CandMap := List (PName × CandSet)

/-- A `(parent, node)` pair on the `parents` stack of the candidate search. -/
structure Tupl where
  parent : Nat
  node : Nat
  deriving Repr, DecidableEq

/-- Internal options (`InternalHoistOptions`). -/
structure HOptions where
  check : Bool
  debugLevel : Int
  deriving Repr, DecidableEq

/-- The mutable state of one candidate search: the heap (for `reasons`
writes), the per-name candidate map, the `parents` stack (head is the most
recently pushed tuple) and the `seenLocators` set. -/
structure SearchSt where
  hs : HS
  cands : CandMap
  parents : List Tupl
  seen : List String
  deriving Repr, DecidableEq

/-- The read-only context of one candidate search. -/
structure SearchCtx where
  rootId : Nat
  rootNodePath : List Nat
  ancestorDeps : DepMap
  amap : AncestorMap
  opts : HOptions
  deriving Repr, DecidableEq

/-- The ancestor loop of the name-availability predicate: walking the stack
bottom-up, find the first parent whose `dependencies` or
`relayedDependencies` entry for the name has a different ident.  Returns
the id used for the reason (`parentDep || relayedDep`) and the parent id. -/
def findNameBlocker (hs : HS) (ps : List Tupl) (name : PName) (ident : String) :
    Option (Nat × Nat) :=
  match ps with
  | [] => none
  | t :: rest =>
    let parentNode := getW hs t.parent
    let parentDep? := mapGet parentNode.dependencies name
    let relayedDep? := mapGet parentNode.relayedDependencies name
    let mism := fun (d : Option Nat) =>
      match d with
      | some i => decide ((getW hs i).ident ≠ ident)
      | none => false
    if mism parentDep? || mism relayedDep? then
      some (parentDep?.getD (relayedDep?.getD 0), t.parent)
    else findNameBlocker hs rest name ident

/-- The hoisted-dependency loop of the regular-dependencies predicate: the
first entry of `node.hoistedDependencies` that `node.originalDependencies`
also declares and that the cumulative ancestor dependencies do not satisfy.
Returns the failing dependency id and the clashing ancestor entry, if any. -/
def findUnsatisfiedHoistedDep (hs : HS) (node : WNode) (ancestorDeps : DepMap)
    (hdeps : List (PName × Nat)) : Option (Nat × Option Nat) :=
  match hdeps with
  | [] => none
  | (_, depId) :: rest =>
    let dep := getW hs depId
    if mapHas node.originalDependencies dep.name then
      match mapGet ancestorDeps dep.name with
      | none => some (depId, none)
      | some aId =>
        if (getW hs aId).ident ≠ dep.ident then some (depId, some aId)
        else findUnsatisfiedHoistedDep hs node ancestorDeps rest
    else findUnsatisfiedHoistedDep hs node ancestorDeps rest

/-- One parent step of the peer-dependencies predicate: run the current
check list against a parent; `error` is the first `(name, parentDepNode)`
that shows the peer was not hoisted, `ok` is the remaining check list. -/
def peerCheckParent (hs : HS) (parent : WNode) (checkList : List PName) :
    Except (PName × Nat) (List PName) :=
  match checkList with
  | [] => .ok []
  | n :: rest =>
    if setHas parent.peerNames n then
      match peerCheckParent hs parent rest with
      | .ok l => .ok (n :: l)
      | .error e => .error e
    else
      match mapGet parent.dependencies n with
      | some d => .error (n, d)
      | none => peerCheckParent hs parent rest

/-- The outer loop of the peer-dependencies predicate, walking the stack
from the deepest parent outward.  Returns the first failing
`(parent, parentDepNode)`, or `none` when all peers are satisfied. -/
def peerCheckParents (hs : HS) (ps : List Tupl) (checkList : List PName) :
    Option (Nat × Nat) :=
  match ps with
  | [] => none
  | t :: rest =>
    let parent := getW hs t.node
    match peerCheckParent hs parent checkList with
    | .error e => some (t.node, e.2)
    | .ok cl => peerCheckParents hs rest cl

/-- Record a hoistable node in the per-name candidate map (the final block
of `computeHoistCandidates`): a fresh candidate set is installed when the
name is new or when the recorded competitor has a different ident; then the
location is appended to the set. -/
def updateHoistCandidates (hs : HS) (cands : CandMap) (name : PName) (nodeId : Nat)
    (weight : Nat) (nodePath : List Nat) : CandMap :=
  let competitorInfo := mapGet cands name
  let hoistCandidate? := mapGet cands name
  let replace :=
    match competitorInfo with
    | some ci => decide ((getW hs ci.node).ident ≠ (getW hs nodeId).ident)
    | none => false
  let cs : CandSet :=
    match hoistCandidate? with
    | none => { node := nodeId, weight := weight, candidates := [] }
    | some c => if replace then { node := nodeId, weight := weight, candidates := [] } else c
  mapSet cands name { cs with candidates := cs.candidates ++ [(nodePath, nodeId)] }

/-- The values of the six promotability predicates of
`computeHoistCandidates` for one node, together with the auxiliary data
(weight, blockers) and the rejection reason of the first failing
predicate. -/
structure HCInfo where
  weight : Nat
  isHoistable : Bool
  isCompatibleIdent : Bool
  reason : String
  deriving Repr, DecidableEq

/-- Evaluate the promotability predicates of `computeHoistCandidates` in
source order, recording the reason of the first failing one.
`ancestorNode` is the (defined) ancestor set for the node's ident. -/
def computeHCinfo (ctx : SearchCtx) (st : SearchSt) (nodeId : Nat)
    (ancestorNode : List String) : HCInfo :=
  let rootNode := getW st.hs ctx.rootId
  let node := getW st.hs nodeId
  let reasonRoot :=
    joinArrow (ctx.rootNodePath.map (fun i => prettyPrintLocator (getW st.hs i).locator))
  let isRegularDepAtRoot := ! setHas rootNode.peerNames node.name
  let competitorInfo := mapGet st.cands node.name
  let weight := ancestorNode.length
  let isCompatibleIdent :=
    (rootNode.name != node.name) || (rootNode.ident == node.ident)
  let rootDep := mapGet rootNode.dependencies node.name
  let origRootDep := mapGet rootNode.originalDependencies node.name
  let origAvailable :=
    match origRootDep with
    | none => true
    | some o => (getW st.hs o).ident == node.ident
  let blocker := findNameBlocker st.hs st.parents.reverse node.name node.ident
  let isNameAvailable := origAvailable && blocker.isNone
  let isPreferred :=
    match competitorInfo with
    | none => true
    | some ci => decide (ci.weight ≤ weight)
  let badHoisted := findUnsatisfiedHoistedDep st.hs node ctx.ancestorDeps
    node.hoistedDependencies
  let areRegularDepsSatisfied := rootDep.isSome || badHoisted.isNone
  let peerBlocker := peerCheckParents st.hs st.parents (setOfList node.peerNames)
  let arePeerDepsSatisfied := peerBlocker.isNone
  let isHoistable := isRegularDepAtRoot && isCompatibleIdent && isNameAvailable &&
    isPreferred && areRegularDepsSatisfied && arePeerDepsSatisfied
  let reason :=
    if ! isRegularDepAtRoot then
      "- is a peer dependency at " ++ reasonRoot
    else if ! isCompatibleIdent then
      "- conflicts with " ++ reasonRoot
    else if ! origAvailable then
      "- filled by: " ++
        prettyPrintLocator (getW st.hs ((origRootDep).getD 0)).locator ++
        " at " ++ reasonRoot
    else if ! isNameAvailable then
      match blocker with
      | some (depI, parI) =>
        "- filled by: " ++ prettyPrintLocator (getW st.hs depI).locator ++ " at " ++
          prettyPrintLocator (getW st.hs parI).locator
      | none => ""
    else if ! isPreferred then
      "- preferred package " ++
        (match competitorInfo with
         | some ci => (getW st.hs ci.node).locator
         | none => "") ++ " at " ++ reasonRoot
    else if ! areRegularDepsSatisfied then
      match badHoisted with
      | some (depI, none) =>
        "- hoisted dependency " ++ prettyPrintLocator (getW st.hs depI).locator ++
          " is absent at " ++ reasonRoot
      | some (depI, some aI) =>
        "- hoisted dependency " ++ prettyPrintLocator (getW st.hs depI).locator ++
          " has a clash with " ++ prettyPrintLocator (getW st.hs aI).locator ++
          " at " ++ reasonRoot
      | none => ""
    else
      match peerBlocker with
      | some (parI, depI) =>
        "- peer dependency " ++ prettyPrintLocator (getW st.hs depI).locator ++
          " from parent " ++ prettyPrintLocator (getW st.hs parI).locator ++
          " was not hoisted to " ++ reasonRoot
      | none => ""
  { weight := weight, isHoistable := isHoistable,
    isCompatibleIdent := isCompatibleIdent, reason := reason }

/-- The recording block of `computeHoistCandidates`: a hoistable node is
recorded in the candidate map; a rejected node's reason is attached to the
immediate parent's `reasons` when the debug level asks for it and no other
root's reason is present. -/
def computeHCrecord (ctx : SearchCtx) (st : SearchSt) (nodeId : Nat)
    (nodePath : List Nat) (parentId : Nat) (info : HCInfo) : SearchSt :=
  let node := getW st.hs nodeId
  if info.isHoistable then
    { st with cands :=
        updateHoistCandidates st.hs st.cands node.name nodeId info.weight nodePath }
  else if ctx.opts.debugLevel ≥ 2 then
    let parentN := getW st.hs parentId
    let record :=
      match mapGet parentN.reasons node.name with
      | none => true
      | some pr => pr.root = ctx.rootId
    if record then
      { st with hs := setW st.hs parentId { parentN with
          reasons := mapSet parentN.reasons node.name
            { root := ctx.rootId, reason := info.reason } } }
    else st
  else st

/-- `computeHoistCandidates`: evaluate the six promotability predicates for
a node reached at `nodePath`, record it as a candidate or record a
rejection reason, and explore its subtree unless the locator was seen. -/
def computeHC (fuel : Nat) (ctx : SearchCtx) (st : SearchSt) (nodePath : List Nat)
    (nodeId : Nat) : HRes SearchSt :=
  match fuel with
  | 0 => .fuelOut
  | fuel' + 1 =>
    let node := getW st.hs nodeId
    let isSeen := setHas st.seen node.locator
    match mapGet ctx.amap node.ident with
    | none => .thrown "TypeError: ancestorMap.get(node.ident) is undefined"
    | some ancestorNode =>
      match st.parents with
      | [] => .thrown "TypeError: parents[parents.length - 1] is undefined"
      | topTuple :: _ =>
        let info := computeHCinfo ctx st nodeId ancestorNode
        let st1 := computeHCrecord ctx st nodeId nodePath topTuple.node info
        if isSeen then .ok st1
        else
          let st2 := { st1 with
            seen := setAdd st1.seen node.locator,
            parents := { parent := topTuple.node, node := nodeId } :: st1.parents }
          match loopGo (fun (s : SearchSt) depId =>
              if (! setHas (getW s.hs nodeId).peerNames (getW s.hs depId).name) &&
                  (! setHas nodePath depId) then
                computeHC fuel' ctx s (nodePath ++ [nodeId]) depId
              else .ok s)
            (mapValues node.dependencies) st2 with
          | .ok st3 => .ok { st3 with parents := st3.parents.tail }
          | .thrown e => .thrown e
          | .fuelOut => .fuelOut

/-- One root-child step of the `getHoistCandidates` top level: skip peer
children; otherwise mark the child's locator seen, push its tuple, search
its non-peer sub-dependencies, and pop. -/
def ghcTopStep (fuel : Nat) (ctx : SearchCtx) (st : SearchSt) (depId : Nat) :
    HRes SearchSt :=
  let rootNode := getW st.hs ctx.rootId
  let depNode := getW st.hs depId
  if setHas rootNode.peerNames depNode.name then .ok st
  else
    let st1 := { st with
      seen := setAdd st.seen depNode.locator,
      parents := { parent := ctx.rootId, node := depId } :: st.parents }
    match loopGo (fun (s : SearchSt) subId =>
        if setHas (getW s.hs depId).peerNames (getW s.hs subId).name then .ok s
        else computeHC fuel ctx s [depId] subId)
      (mapValues depNode.dependencies) st1 with
    | .ok st2 => .ok { st2 with parents := st2.parents.tail }
    | .thrown e => .thrown e
    | .fuelOut => .fuelOut

/-- `getHoistCandidates`: run the candidate search from the root's children
and return the mutated heap (rejection reasons) and the candidate sets. -/
def getHoistCandidates (fuel : Nat) (hs : HS) (rootId : Nat) (rootNodePath : List Nat)
    (ancestorDeps : DepMap) (amap : AncestorMap) (opts : HOptions) :
    HRes (HS × List CandSet) :=
  let ctx : SearchCtx :=
    { rootId := rootId, rootNodePath := rootNodePath, ancestorDeps := ancestorDeps,
      amap := amap, opts := opts }
  let st0 : SearchSt :=
    { hs := hs, cands := [], parents := [], seen := [(getW hs rootId).locator] }
  match loopGo (ghcTopStep fuel ctx) (mapValues (getW hs rootId).dependencies) st0 with
  | .ok st1 => .ok (st1.hs, mapValues st1.cands)
  | .thrown e => .thrown e
  | .fuelOut => .fuelOut

/-! ## Hoist applier (`hoistTo`) -/

/-- The lazy clone tree of one `hoistTo` invocation: the clone at this level
and the child clone trees, keyed by the original node id. -/
inductive CTree where
  | mk (clone : Nat) (children : List (Nat × CTree))

def CTree.clone : CTree → Nat
  | .mk c _ => c

def CTree.children : CTree → List (Nat × CTree)
  | .mk _ ch => ch

/-- The shallow copy of an intermediate node made on first traversal: same
name, ident and locator; references and peer names copied into fresh sets;
all four dependency maps and the reasons map copied by value. -/
def cloneWNode (node : WNode) : WNode :=
  { name := node.name
    references := setOfList node.references
    ident := node.ident
    locator := node.locator
    dependencies := node.dependencies
    originalDependencies := node.originalDependencies
    hoistedDependencies := node.hoistedDependencies
    relayedDependencies := node.relayedDependencies
    peerNames := setOfList node.peerNames
    reasons := node.reasons }

/-- Walk the candidate's node path through the clone tree, creating and
splicing shallow clones on first traversal and recording the promoted node
in each clone's `relayedDependencies`.  Returns the heap, the updated clone
tree and the id of the terminal clone. -/
def walkClonePath (hs : HS) (ct : CTree) (path : List Nat) (candName : PName)
    (candId : Nat) : HS × CTree × Nat :=
  match path with
  | [] => (hs, ct, ct.clone)
  | nodeId :: rest =>
    let step : HS × CTree × CTree :=
      match mapGet ct.children nodeId with
      | some nodeClone => (hs, ct, nodeClone)
      | none =>
        let node := getW hs nodeId
        let alloc := allocW hs (cloneWNode node)
        let hsA := alloc.1
        let cloneId := alloc.2
        let parentCloneN := getW hsA ct.clone
        let hsB := setW hsA ct.clone { parentCloneN with
          dependencies := mapSet parentCloneN.dependencies node.name cloneId }
        let nodeCt := CTree.mk cloneId []
        (hsB, CTree.mk ct.clone (mapSet ct.children nodeId nodeCt), nodeCt)
    let hs1 := step.1
    let ct1 := step.2.1
    let childCt := step.2.2
    let cid := childCt.clone
    let cN := getW hs1 cid
    let hs2 := setW hs1 cid { cN with
      relayedDependencies := mapSet cN.relayedDependencies candName candId }
    let rec2 := walkClonePath hs2 childCt rest candName candId
    (rec2.1, CTree.mk ct1.clone (mapSet ct1.children nodeId rec2.2.1), rec2.2.2)

/-- The root step of applying one candidate (`hoistTo`, after the clone
walk): if the root has no entry for the candidate's name, insert the
candidate (and extend the ancestor dependencies) unless the root itself has
the candidate's ident; if an entry exists, merge the candidate's references
into it. -/
def applyAtRoot (hs : HS) (rootId : Nat) (aDeps : DepMap) (candId : Nat) :
    HS × DepMap :=
  let rootNode := getW hs rootId
  let cand := getW hs candId
  match mapGet rootNode.dependencies cand.name with
  | none =>
    if rootNode.ident ≠ cand.ident then
      (setW hs rootId { rootNode with
         dependencies := mapSet rootNode.dependencies cand.name candId },
       mapSet aDeps cand.name candId)
    else (hs, aDeps)
  | some hoistedId =>
    let hoisted := getW hs hoistedId
    (setW hs hoistedId { hoisted with
       references := cand.references.foldl setAdd hoisted.references }, aDeps)

/-- Apply one `(nodePath, node)` candidate: walk and splice the clone path,
record the relays, delete the node and its reason from the terminal clone,
then apply the root step. -/
def applyCandidate (hs : HS) (ct : CTree) (rootId : Nat) (aDeps : DepMap)
    (cand : List Nat × Nat) : HS × CTree × DepMap :=
  let candId := cand.2
  let candName := (getW hs candId).name
  let walk := walkClonePath hs ct cand.1 candName candId
  let hs1 := walk.1
  let ct1 := walk.2.1
  let termId := walk.2.2
  let termN := getW hs1 termId
  let hs2 := setW hs1 termId { termN with
    dependencies := mapDelete termN.dependencies candName,
    reasons := mapDelete termN.reasons candName }
  let root := applyAtRoot hs2 rootId aDeps candId
  (root.1, ct1, root.2)

/-- One step of the candidate-application loop: apply the candidate, then
run the self check when check mode is on, throwing on a non-empty log. -/
def applyCandidateStep (fuel : Nat) (treeId rootId : Nat) (opts : HOptions)
    (s : HS × CTree × DepMap) (c : List Nat × Nat) : HRes (HS × CTree × DepMap) :=
  let app := applyCandidate s.1 s.2.1 rootId s.2.2 c
  let hs1 := app.1
  if opts.check then
    match selfCheck fuel hs1 treeId with
    | .ok checkLog =>
      if checkLog ≠ "" then
        .thrown (checkLog ++ ", after hoisting " ++
          joinArrow ((rootId :: (c.1 ++ [c.2])).map
            (fun i => prettyPrintLocator (getW hs1 i).locator)))
      else .ok app
    | .thrown e => .thrown e
    | .fuelOut => .fuelOut
  else .ok app

/-- Apply every candidate set of one finder pass, each set's candidates in
order. -/
def applyCandidateSets (fuel : Nat) (hs : HS) (ct : CTree) (aDeps : DepMap)
    (treeId rootId : Nat) (opts : HOptions) (sets : List CandSet) :
    HRes (HS × CTree × DepMap) :=
  loopGo (fun (s : HS × CTree × DepMap) (cs : CandSet) =>
      loopGo (applyCandidateStep fuel treeId rootId opts) cs.candidates s)
    sets (hs, ct, aDeps)

/-- The `do … while (hoistCandidates.size > 0)` loop of `hoistTo`: find
candidates, apply them, and repeat until the finder returns an empty set.
The clone tree persists across iterations. -/
def hoistRounds (fuel : Nat) (hs : HS) (ct : CTree) (treeId rootId : Nat)
    (rootNodePath : List Nat) (aDeps : DepMap) (amap : AncestorMap) (opts : HOptions) :
    HRes (HS × DepMap) :=
  match fuel with
  | 0 => .fuelOut
  | fuel' + 1 =>
    match getHoistCandidates fuel' hs rootId rootNodePath aDeps amap opts with
    | .ok (hs1, sets) =>
      match applyCandidateSets fuel' hs1 ct aDeps treeId rootId opts sets with
      | .ok (hs2, ct2, aDeps2) =>
        if sets.length > 0 then
          hoistRounds fuel' hs2 ct2 treeId rootId rootNodePath aDeps2 amap opts
        else .ok (hs2, aDeps2)
      | .thrown e => .thrown e
      | .fuelOut => .fuelOut
    | .thrown e => .thrown e
    | .fuelOut => .fuelOut

/-- `hoistTo`: hoist everything hoistable to `rootNode` (fixed point of the
finder/applier loop), then recurse into each non-peer dependency as a new
root.  Memoised on the root via `seenNodes`; each loop step adds the child
to the root node path (and removes it afterwards) exactly as the source
mutates its shared `Set`, so the state threads `(heap, seenNodes, path)`. -/
def hoistTo (fuel : Nat) (hs : HS) (treeId rootId : Nat) (rootNodePath : List Nat)
    (parentAncestorDeps : DepMap) (amap : AncestorMap) (opts : HOptions)
    (seenNodes : List Nat) : HRes (HS × List Nat × List Nat) :=
  match fuel with
  | 0 => .fuelOut
  | fuel' + 1 =>
    if setHas seenNodes rootId then .ok (hs, seenNodes, rootNodePath)
    else
      let seen1 := setAdd seenNodes rootId
      let rootNode := getW hs rootId
      let aDeps := overlayNonPeerDeps hs rootNode.peerNames rootNode.dependencies
        parentAncestorDeps
      let ct0 := CTree.mk rootId []
      match hoistRounds fuel' hs ct0 treeId rootId rootNodePath aDeps amap opts with
      | .ok (hs1, aDeps1) =>
        loopGo (fun (s : HS × List Nat × List Nat) depId =>
            let path1 := setAdd s.2.2 depId
            if setHas (getW s.1 rootId).peerNames (getW s.1 depId).name then
              .ok (s.1, s.2.1, setDelete path1 depId)
            else
              match hoistTo fuel' s.1 treeId depId path1 aDeps1 amap opts s.2.1 with
              | .ok (hs2, seen2, path2) => .ok (hs2, seen2, setDelete path2 depId)
              | .thrown e => .thrown e
              | .fuelOut => .fuelOut)
          (mapValues (getW hs1 rootId).dependencies) (hs1, seen1, rootNodePath)
      | .thrown e => .thrown e
      | .fuelOut => .fuelOut

/-! ## Output shrinker (`shrinkTree`) -/

/-- `HoisterResult`: an output node; `dependencies` holds result-node ids. -/
structure RNode where
  name : PName
  references : List String
  dependencies : List Nat
  deriving Repr, DecidableEq

def dummyRNode : RNode := { name := "", references := [], dependencies := [] }

/-- The state of a shrink run: the output store and the `nodes` memo.  The
source initialises the memo with the root but never extends it. -/
structure ShrinkSt where
  out : List RNode
  nodes : List (Nat × Nat)
  deriving Repr, DecidableEq

def getR (st : ShrinkSt) (i : Nat) : RNode := st.out.getD i dummyRNode

def setR (st : ShrinkSt) (i : Nat) (n : RNode) : ShrinkSt :=
  { st with out := st.out.set i n }

def allocR (st : ShrinkSt) (n : RNode) : ShrinkSt × Nat :=
  ({ st with out := st.out ++ [n] }, st.out.length)

/-- `addNode` of `shrinkTree`: look the work node up in the memo (which
only ever contains the root), create a fresh result node when absent —
without recording it in the memo, exactly as the source does — add it to
the parent's dependencies, and loop over the non-peer children when the
node was not found in the memo. -/
def shrinkAddNode (fuel : Nat) (hs : HS) (st : ShrinkSt) (wid parentRid : Nat) :
    HRes ShrinkSt :=
  match fuel with
  | 0 => .fuelOut
  | fuel' + 1 =>
    let node := getW hs wid
    let resultNode? := mapGet st.nodes wid
    let isSeen := resultNode?.isSome
    let made : ShrinkSt × Nat :=
      match resultNode? with
      | some rid => (st, rid)
      | none =>
        allocR st
          { name := node.name, references := node.references, dependencies := [] }
    let st1 := made.1
    let rid := made.2
    let parentN := getR st1 parentRid
    let st2 := setR st1 parentRid { parentN with
      dependencies := setAdd parentN.dependencies rid }
    if isSeen then .ok st2
    else
      loopGo (fun (s : ShrinkSt) depId =>
          if setHas node.peerNames (getW hs depId).name then .ok s
          else shrinkAddNode fuel' hs s depId rid)
        (mapValues node.dependencies) st2

/-- `shrinkTree`: project the work graph to the output shape.  The
root-child loop applies no peer filter, unlike the inner loop.  Returns
the output store and the id of the output root. -/
def shrinkTree (fuel : Nat) (hs : HS) (rootW : Nat) : HRes (List RNode × Nat) :=
  let rootNode := getW hs rootW
  let rootCopy : RNode :=
    { name := rootNode.name, references := setOfList rootNode.references,
      dependencies := [] }
  let st0 : ShrinkSt := { out := [rootCopy], nodes := [(rootW, 0)] }
  match loopGo (fun (s : ShrinkSt) depId => shrinkAddNode fuel hs s depId 0)
      (mapValues rootNode.dependencies) st0 with
  | .ok st1 => .ok (st1.out, 0)
  | .thrown e => .thrown e
  | .fuelOut => .fuelOut

/-! ## Top level (`hoist`) -/

/-- `HoistOptions`: the caller's options; absent fields are `undefined`. -/
structure HoistOpts where
  check : Option Bool
  debugLevel : Option Int
  deriving Repr, DecidableEq

/-- The effective debug level:
`opts.debugLevel || Number(process.env.NM_DEBUG_LEVEL || -1)`.
`envDebugLevel` models the numeric value of `NM_DEBUG_LEVEL`, `none` when
the variable is unset or empty.  JavaScript `||` takes the fallback when
`opts.debugLevel` is the (falsy) number `0`. -/
def effectiveDebugLevel (optsDebugLevel : Option Int) (envDebugLevel : Option Int) : Int :=
  match optsDebugLevel with
  | some d => if d = 0 then envDebugLevel.getD (-1) else d
  | none => envDebugLevel.getD (-1)

/-- `hoist`: clone the input tree, build the ancestor map, hoist to the
fixed point everywhere, optionally run the final self check, and shrink.
Returns the output store and root, with the final heap threaded out. -/
def hoist (fuel : Nat) (hs : HS) (rootInp : Nat) (opts : HoistOpts)
    (envDebugLevel : Option Int) : HRes (List RNode × Nat) × HS :=
  match cloneTree fuel hs rootInp with
  | .thrown e => (.thrown e, hs)
  | .fuelOut => (.fuelOut, hs)
  | .ok (hs1, treeW, _) =>
    match buildAncestorMap fuel hs1 treeW with
    | .thrown e => (.thrown e, hs1)
    | .fuelOut => (.fuelOut, hs1)
    | .ok amap =>
      let debugLevel := effectiveDebugLevel opts.debugLevel envDebugLevel
      let check := opts.check.getD false || debugLevel ≥ 9
      let options : HOptions := { check := check, debugLevel := debugLevel }
      match hoistTo fuel hs1 treeW treeW [treeW] [] amap options [] with
      | .thrown e => (.thrown e, hs1)
      | .fuelOut => (.fuelOut, hs1)
      | .ok (hs2, _, _) =>
        if options.debugLevel ≥ 1 then
          match selfCheck fuel hs2 treeW with
          | .thrown e => (.thrown e, hs2)
          | .fuelOut => (.fuelOut, hs2)
          | .ok checkLog =>
            if checkLog ≠ "" then
              (.thrown (checkLog ++ ", after hoisting finished:"), hs2)
            else
              match shrinkTree fuel hs2 treeW with
              | .ok r => (.ok r, hs2)
              | .thrown e => (.thrown e, hs2)
              | .fuelOut => (.fuelOut, hs2)
        else
          match shrinkTree fuel hs2 treeW with
          | .ok r => (.ok r, hs2)
          | .thrown e => (.thrown e, hs2)
          | .fuelOut => (.fuelOut, hs2)

/-! ## Spec-side definitions and concrete instances used by the theorems -/

/-- Modelled from the spec: the visible resolution of a name at a node —
the node's own `dependencies` entry when present, otherwise the resolution
visible from above.  (The spec's self-checker clause compares this against
the parent's visible resolution for peer names.) -/
def specVisibleResolutionAt (node : WNode) (parentDeps : DepMap) (name : PName) :
    Option Nat :=
  match mapGet node.dependencies name with
  | some d => some d
  | none => mapGet parentDeps name

/-- Whether a check entry reports a broken peer promise. -/
def CheckEntry.isBrokenPeer : CheckEntry → Bool
  | .brokenPeer _ _ _ => true
  | .requireMissing _ _ => false
  | .requireMismatch _ _ _ => false

/-- The gated per-name candidate recording step: the popularity predicate
(`competitorInfo.weight <= weight`) followed, when it passes, by the
candidate-map update of the source's recording block. -/
def candRecordStep (hs : HS) (cands : CandMap) (name : PName) (nodeId : Nat)
    (weight : Nat) (nodePath : List Nat) : CandMap :=
  let competitorInfo := mapGet cands name
  let isPreferred :=
    match competitorInfo with
    | none => true
    | some ci => decide (ci.weight ≤ weight)
  if isPreferred then updateHoistCandidates hs cands name nodeId weight nodePath
  else cands

/-- Modelled from the spec: the occurrence that the popularity rule is
claimed to keep — among a nonempty sequence of qualifying occurrences,
the heaviest one; the fold keeps the later occurrence exactly when its
weight is at least the current best (so among equal maximal weights the
last occurrence wins). -/
def lastHeaviest (e0 : Nat × Nat × List Nat) (events : List (Nat × Nat × List Nat)) :
    Nat × Nat × List Nat :=
  events.foldl (fun best e => if best.2.1 ≤ e.2.1 then e else best) e0

/-- Options with neither `check` nor `debugLevel` provided. -/
def optsNone : HoistOpts := { check := none, debugLevel := none }

/-- The contents the input cloner promises for the work node `w` built
from input node `i`: the copied scalar fields, references containing the
sole input reference, `dependencies` and `originalDependencies` the same
map, the bookkeeping maps empty, and every dependency entry resolved
through the memo (so revisits share the work node instead of unfolding). -/
def CloneNodeSpec (hs : HS) (memo : CloneMemo) (i w : Nat) : Prop :=
  (getW hs w).name = (getI hs i).name
  ∧ (getW hs w).references = [(getI hs i).reference]
  ∧ (getW hs w).locator = makeLocator (getI hs i).name (getI hs i).reference
  ∧ (getW hs w).ident = makeIdent (getI hs i).name (getI hs i).reference
  ∧ (getW hs w).peerNames = (getI hs i).peerNames
  ∧ (getW hs w).dependencies = (getW hs w).originalDependencies
  ∧ (getW hs w).hoistedDependencies = []
  ∧ (getW hs w).relayedDependencies = []
  ∧ ∀ n c, (n, c) ∈ (getW hs w).dependencies →
      ∃ j, mapGet memo j = some c ∧ n = (getI hs j).name

/-- The cloner's invariant: every memo binding points into the work store
and satisfies `CloneNodeSpec`. -/
def CloneInv (hs : HS) (memo : CloneMemo) : Prop :=
  ∀ i w, mapGet memo i = some w → w < hs.work.length ∧ CloneNodeSpec hs memo i w

/-- The two heaps agree on every node's `name` and `ident` (the candidate
search only ever writes `reasons`). -/
def NamesIdentsPreserved (h1 h2 : HS) : Prop :=
  ∀ j, (getW h2 j).name = (getW h1 j).name ∧ (getW h2 j).ident = (getW h1 j).ident

/-- Every candidate recorded in the map passed the ident-compatibility
predicate against the root: sharing the root's name forces sharing the
root's ident — both for the set's representative node and for every
recorded location. -/
def CandOK (hs : HS) (rootId : Nat) (cands : CandMap) : Prop :=
  ∀ p ∈ cands,
    ((getW hs rootId).name = (getW hs (p.2).node).name →
      (getW hs rootId).ident = (getW hs (p.2).node).ident)
    ∧ ∀ c ∈ (p.2).candidates,
        ((getW hs rootId).name = (getW hs c.2).name →
          (getW hs rootId).ident = (getW hs c.2).ident)

/-- Popularity-tie instance: `root → A@1 → L@1` and `root → B@1 → L@2`;
both `L` instances have one ancestor, so their weights are equal. -/
def cexPopHS : HS :=
  { inp := [
      { name := ".", reference := "workspace:.", dependencies := [1, 3], peerNames := [] },
      { name := "A", reference := "1", dependencies := [2], peerNames := [] },
      { name := "L", reference := "1", dependencies := [], peerNames := [] },
      { name := "B", reference := "1", dependencies := [4], peerNames := [] },
      { name := "L", reference := "2", dependencies := [], peerNames := [] }],
    work := [] }

/-- Root-peer instance: the root declares `P` both as a dependency and as a
peer name. -/
def cexRootPeerHS : HS :=
  { inp := [
      { name := ".", reference := "workspace:.", dependencies := [1], peerNames := ["P"] },
      { name := "P", reference := "1", dependencies := [], peerNames := [] }],
    work := [] }

/-- A work store on which the self checker is silent although node `1`
(named `A`) declares peer `P` resolved to node `3` (`P@2`) while the
parent-visible resolution of `P` is node `2` (`P@1`). -/
def cexSelfCheckHS : HS :=
  { inp := [],
    work := [
      { name := ".", references := ["workspace:."], ident := ".@workspace:.",
        locator := ".@workspace:.", dependencies := [("A", 1), ("P", 2)],
        originalDependencies := [("A", 1), ("P", 2)], hoistedDependencies := [],
        relayedDependencies := [], peerNames := [], reasons := [] },
      { name := "A", references := ["1"], ident := "A@1", locator := "A@1",
        dependencies := [("P", 3)], originalDependencies := [("P", 3)],
        hoistedDependencies := [], relayedDependencies := [], peerNames := ["P"],
        reasons := [] },
      { name := "P", references := ["1"], ident := "P@1", locator := "P@1",
        dependencies := [], originalDependencies := [], hoistedDependencies := [],
        relayedDependencies := [], peerNames := [], reasons := [] },
      { name := "P", references := ["2"], ident := "P@2", locator := "P@2",
        dependencies := [], originalDependencies := [], hoistedDependencies := [],
        relayedDependencies := [], peerNames := [], reasons := [] }] }

/-- A work store with a broken require promise: node `A` originally
declares `B@1`, but no `B` is visible from `A`. -/
def cexBrokenRequireHS : HS :=
  { inp := [],
    work := [
      { name := ".", references := ["workspace:."], ident := ".@workspace:.",
        locator := ".@workspace:.", dependencies := [("A", 1)],
        originalDependencies := [("A", 1)], hoistedDependencies := [],
        relayedDependencies := [], peerNames := [], reasons := [] },
      { name := "A", references := ["1"], ident := "A@1", locator := "A@1",
        dependencies := [], originalDependencies := [("B", 2)],
        hoistedDependencies := [], relayedDependencies := [], peerNames := [],
        reasons := [] },
      { name := "B", references := ["1"], ident := "B@1", locator := "B@1",
        dependencies := [], originalDependencies := [], hoistedDependencies := [],
        relayedDependencies := [], peerNames := [], reasons := [] }] }

/-- The ancestor map computed for the popularity-tie instance. -/
def cexPopAmap : HRes AncestorMap :=
  match cloneTree 40 cexPopHS 0 with
  | .ok (hs1, tw, _) => buildAncestorMap 40 hs1 tw
  | .thrown e => .thrown e
  | .fuelOut => .fuelOut

/-- Cycle instance with name-conflict decoys blocking every hoist of the
cycle members `X@1 ↔ Y@1`, so the cycle survives to the shrinker:
`root → A`; `A → X@1, Y@2`; `X@1 → Y@1, X@2`; `Y@1 → X@1, Y@2`. -/
def cexCycleHS : HS :=
  { inp := [
      { name := ".", reference := "workspace:.", dependencies := [1], peerNames := [] },
      { name := "A", reference := "1", dependencies := [2, 6], peerNames := [] },
      { name := "X", reference := "1", dependencies := [3, 4], peerNames := [] },
      { name := "Y", reference := "1", dependencies := [2, 5], peerNames := [] },
      { name := "X", reference := "2", dependencies := [], peerNames := [] },
      { name := "Y", reference := "2", dependencies := [], peerNames := [] },
      { name := "Y", reference := "2", dependencies := [], peerNames := [] }],
    work := [] }

/-- The work nodes from which the shrinker can project an output node: the
root, any direct dependency of the root (the top-level loop applies no peer
filter), and recursively any dependency of a projectable node whose name is
not among the parent's peer names (the inner loop's filter). -/
inductive ShrinkSrc (hs : HS) (rootW : Nat) : Nat → Prop where
  | root : ShrinkSrc hs rootW rootW
  | rootChild (c : Nat) : c ∈ mapValues (getW hs rootW).dependencies →
      ShrinkSrc hs rootW c
  | child (b c : Nat) : ShrinkSrc hs rootW b →
      c ∈ mapValues (getW hs b).dependencies →
      setHas (getW hs b).peerNames (getW hs c).name = false →
      ShrinkSrc hs rootW c

/-- An output node is a projection of a legitimate shrink source: the root
copy (with de-duplicated references) or a fresh copy of a projectable work
node. -/
def RProjOf (hs : HS) (rootW : Nat) (rn : RNode) : Prop :=
  (rn.name = (getW hs rootW).name
    ∧ rn.references = setOfList (getW hs rootW).references)
  ∨ ∃ w, ShrinkSrc hs rootW w ∧ rn.name = (getW hs w).name
      ∧ rn.references = (getW hs w).references

/-- Whether an outcome is a normal return. -/
def HRes.isOk {α : Type} : HRes α → Bool
  | .ok _ => true
  | .thrown _ => false
  | .fuelOut => false

/-- The internal options `hoist` builds for `optsNone` with an unset
`NM_DEBUG_LEVEL`: check off, debug level `-1`. -/
def cexCycleOpts : HOptions := { check := false, debugLevel := -1 }

/-- The canonical clone of the cycle instance (the cloner converges on it:
the clone fixes the surviving value at fuel 40). -/
def cexCycleClone : HS × Nat × CloneMemo :=
  match cloneTree 40 cexCycleHS 0 with
  | .ok v => v
  | _ => ({ inp := [], work := [] }, 0, [])

/-- The canonical ancestor map of the cloned cycle instance. -/
def cexCycleAmapRun : AncestorMap :=
  match buildAncestorMap 40 cexCycleClone.1 cexCycleClone.2.1 with
  | .ok a => a
  | _ => []

/-- The canonical hoisted state of the cycle instance: the fixed point the
applier reaches (name-conflict decoys block every promotion of the cycle
members, so the non-peer cycle `X@1 ↔ Y@1` survives in the work graph). -/
def cexCycleHoisted : HS × List Nat × List Nat :=
  match hoistTo 40 cexCycleClone.1 cexCycleClone.2.1 cexCycleClone.2.1
      [cexCycleClone.2.1] [] cexCycleAmapRun cexCycleOpts [] with
  | .ok v => v
  | _ => ({ inp := [], work := [] }, [], [])

end Hoist

namespace Hoist

/-! ## Theorems -/

theorem afterFirstHash_of_split (pre post : List Char)
    (hpre : '#' ∉ pre) : afterFirstHash (pre ++ '#' :: post) = some post := by
  induction pre with
  | nil => simp [afterFirstHash]
  | cons c cs ih =>
    have hc : c ≠ '#' := by
      intro h; exact hpre (by simp [h])
    have hcs : '#' ∉ cs := fun h => hpre (by simp [h])
    simp [afterFirstHash, hc, ih hcs]

theorem afterFirstHash_of_not_mem (l : List Char)
    (h : '#' ∉ l) : afterFirstHash l = none := by
  induction l with
  | nil => rfl
  | cons c cs ih =>
    have hc : c ≠ '#' := by
      intro hcc; exact h (by simp [hcc])
    have hcs : '#' ∉ cs := fun hm => h (by simp [hm])
    simp [afterFirstHash, hc, ih hcs]

/-- **C7.** A work node's locator is `name + '@' + reference`; its ident is
`name + '@' +` the substring of the reference after the first `'#'` when the
reference contains `'#'`, and `name + '@' + reference` otherwise.  The ident
strips the virtual decoration, the locator retains it. -/
theorem makeIdent_strips_virtual_prefix (name reference : String) :
    makeLocator name reference = name ++ "@" ++ reference
    ∧ (∀ pre post : List Char, reference.data = pre ++ '#' :: post → '#' ∉ pre →
        (makeIdent name reference).data = name.data ++ '@' :: post)
    ∧ ('#' ∉ reference.data → makeIdent name reference = name ++ "@" ++ reference) := by
  refine ⟨rfl, ?_, ?_⟩
  · intro pre post hsplit hpre
    have h1 : afterFirstHash reference.data = some post := by
      rw [hsplit]; exact afterFirstHash_of_split pre post hpre
    simp only [makeIdent, h1, makeLocator]
    simp [String.data_append]
  · intro hmem
    simp only [makeIdent, afterFirstHash_of_not_mem _ hmem]
    rfl

/-- **C6 counterexample.** A caller-provided `debugLevel` of `0` is *not*
used as the effective debug level: because the source combines the options
with JavaScript `||` and `0` is falsy, the `NM_DEBUG_LEVEL` environment
value (here `9`) wins. -/
theorem debugLevel_zero_falls_back_to_env :
    effectiveDebugLevel (some 0) (some 9) = 9 ∧ (9 : Int) ≠ 0 := by
  exact ⟨rfl, by decide⟩

/-- **C6 (amended).** A caller-provided nonzero `debugLevel` is used as the
effective debug level; when the caller provides `0` or nothing, the
`NM_DEBUG_LEVEL` environment value is used, with `-1` as the default when
the variable is unset or empty. -/
theorem effectiveDebugLevel_spec (d : Int) (env : Option Int) (hd : d ≠ 0) :
    effectiveDebugLevel (some d) env = d
    ∧ effectiveDebugLevel (some 0) env = env.getD (-1)
    ∧ effectiveDebugLevel none env = env.getD (-1)
    ∧ effectiveDebugLevel none none = -1 := by
  refine ⟨?_, rfl, rfl, rfl⟩
  simp [effectiveDebugLevel, hd]

/-- Witness for the amended C6 theorem at `debugLevel = 5`, env `9`. -/
theorem effectiveDebugLevel_spec_witness :
    (5 : Int) ≠ 0 ∧ effectiveDebugLevel (some 5) (some 9) = 5 := by
  have h := effectiveDebugLevel_spec 5 (some 9) (by decide)
  exact ⟨by decide, h.1⟩

/-- **C2 counterexample.** In `cexPopHS` the two `L` instances have equal
weight (the ancestor sets of `L@1` and `L@2` are `{A@1}` and `{B@1}`, each
of cardinality 1); the depth-first candidate search meets `L@1` first
(root child `A` precedes `B`, `L@1` hangs under `A`); but the instance
hoisted to the root is `L@2` — the one encountered last — refuting that
the instance first encountered is kept. -/
theorem popularity_tie_keeps_last_not_first :
    (hoist 40 cexPopHS 0 optsNone none).1 = .ok ([
        { name := ".", references := ["workspace:."], dependencies := [1, 3, 4] },
        { name := "A", references := ["1"], dependencies := [2] },
        { name := "L", references := ["1"], dependencies := [] },
        { name := "B", references := ["1"], dependencies := [] },
        { name := "L", references := ["2"], dependencies := [] }], 0)
    ∧ cexPopAmap = .ok [("A@1", [".@workspace:."]), ("L@1", ["A@1"]),
        ("B@1", [".@workspace:."]), ("L@2", ["B@1"])]
    ∧ (getI cexPopHS 0).dependencies = [1, 3]
    ∧ (getI cexPopHS 1).name = "A" ∧ (getI cexPopHS 3).name = "B"
    ∧ makeIdent "L" "1" ≠ makeIdent "L" "2" := by
  refine ⟨?_, ?_, rfl, rfl, rfl, by decide⟩ <;> decide

/-- **C10 counterexample.** The shrinker's top-level loop applies no peer
filter: when the root declares `P` both as a dependency and as a peer
name, the output root still contains a child projected from that peer
edge. -/
theorem shrinker_projects_root_peer_edge :
    (hoist 40 cexRootPeerHS 0 optsNone none).1 = .ok ([
        { name := ".", references := ["workspace:."], dependencies := [1] },
        { name := "P", references := ["1"], dependencies := [] }], 0)
    ∧ (getI cexRootPeerHS 0).peerNames = ["P"]
    ∧ (mkWorkNode (getI cexRootPeerHS 0)).peerNames = ["P"]
    ∧ (getI cexRootPeerHS 1).name = "P" := by
  refine ⟨?_, rfl, rfl, rfl⟩
  decide

/-- **C3 counterexample.** On `cexSelfCheckHS`, node 1 (named `A`)
declares `P` as a peer, its own visible resolution of `P` is node 3
(`P@2`) while the parent's visible resolution is node 2 (`P@1`), yet
`selfCheck` returns the empty string: the broken peer promise is not
reported, and the log is empty although a peer promise is violated. -/
theorem selfCheck_silent_on_broken_peer :
    selfCheck 40 cexSelfCheckHS 0 = .ok ""
    ∧ setHas (getW cexSelfCheckHS 1).peerNames "P" = true
    ∧ mapHas (getW cexSelfCheckHS 1).originalDependencies "P" = true
    ∧ specVisibleResolutionAt (getW cexSelfCheckHS 1)
        (getW cexSelfCheckHS 0).dependencies "P" = some 3
    ∧ mapGet (getW cexSelfCheckHS 0).dependencies "P" = some 2
    ∧ (3 : Nat) ≠ 2 := by
  refine ⟨?_, rfl, rfl, rfl, rfl, by decide⟩
  decide

theorem mapGet_mapSet_self {α : Type} (m : List (PName × α)) (k : PName) (v : α) :
    mapGet (mapSet m k v) k = some v := by
  induction m with
  | nil => simp [mapSet, mapGet]
  | cons p rest ih =>
    by_cases h : p.1 = k
    · simp [mapSet, mapGet, h]
    · simp [mapSet, mapGet, h, ih]

theorem updateHoistCandidates_of_some (hs : HS) (cands : CandMap) (name : PName)
    (n w : Nat) (p : List Nat) (c : CandSet) (hc : mapGet cands name = some c) :
    updateHoistCandidates hs cands name n w p =
      mapSet cands name
        (if (getW hs c.node).ident ≠ (getW hs n).ident then
          { node := n, weight := w, candidates := [(p, n)] }
        else { c with candidates := c.candidates ++ [(p, n)] }) := by
  unfold updateHoistCandidates
  rw [hc]
  by_cases h : (getW hs c.node).ident = (getW hs n).ident
  · simp [h]
  · simp [h]

theorem updateHoistCandidates_of_none (hs : HS) (cands : CandMap) (name : PName)
    (n w : Nat) (p : List Nat) (hc : mapGet cands name = none) :
    updateHoistCandidates hs cands name n w p =
      mapSet cands name { node := n, weight := w, candidates := [(p, n)] } := by
  unfold updateHoistCandidates
  rw [hc]
  rfl

theorem lastHeaviest_ge (e0 : Nat × Nat × List Nat) (events : List (Nat × Nat × List Nat)) :
    e0.2.1 ≤ (lastHeaviest e0 events).2.1
    ∧ ∀ e ∈ events, e.2.1 ≤ (lastHeaviest e0 events).2.1 := by
  induction events generalizing e0 with
  | nil => simp [lastHeaviest]
  | cons e rest ih =>
    have hstep : lastHeaviest e0 (e :: rest) =
        lastHeaviest (if e0.2.1 ≤ e.2.1 then e else e0) rest := rfl
    rw [hstep]
    by_cases h : e0.2.1 ≤ e.2.1
    · rw [if_pos h]
      have hh := ih e
      refine ⟨le_trans h hh.1, ?_⟩
      intro x hx
      rw [List.mem_cons] at hx
      rcases hx with hx | hx
      · rw [hx]; exact hh.1
      · exact hh.2 x hx
    · rw [if_neg h]
      have hh := ih e0
      refine ⟨hh.1, ?_⟩
      intro x hx
      rw [List.mem_cons] at hx
      rcases hx with hx | hx
      · rw [hx]
        exact le_trans (Nat.le_of_lt (Nat.lt_of_not_le h)) hh.1
      · exact hh.2 x hx

/-- The candidate-recording fold invariant: once a candidate for the name
is recorded, processing further qualifying occurrences keeps the entry in
sync with the heaviest-so-far occurrence, later occurrences replacing the
entry on ties. -/
theorem candRecordStep_fold_inv (hs : HS) (weightOf : String → Nat) (name : PName)
    (events : List (Nat × Nat × List Nat)) :
    ∀ (cands : CandMap) (c : CandSet) (best : Nat × Nat × List Nat),
      mapGet cands name = some c →
      c.weight = weightOf (getW hs c.node).ident →
      c.weight = best.2.1 →
      (getW hs c.node).ident = (getW hs best.1).ident →
      (∀ e ∈ events, e.2.1 = weightOf (getW hs e.1).ident) →
      ∃ c', mapGet (events.foldl
          (fun cds e => candRecordStep hs cds name e.1 e.2.1 e.2.2) cands) name = some c'
        ∧ c'.weight = (lastHeaviest best events).2.1
        ∧ (getW hs c'.node).ident = (getW hs (lastHeaviest best events).1).ident := by
  induction events with
  | nil =>
    intro cands c best hc hwf hw hi _
    exact ⟨c, hc, by simpa [lastHeaviest] using hw, by simpa [lastHeaviest] using hi⟩
  | cons e rest ih =>
    intro cands c best hc hwf hw hi hall
    have hstep : lastHeaviest best (e :: rest) =
        lastHeaviest (if best.2.1 ≤ e.2.1 then e else best) rest := rfl
    have hrest : ∀ x ∈ rest, x.2.1 = weightOf (getW hs x.1).ident := by
      intro x hx; exact hall x (by simp [hx])
    have he : e.2.1 = weightOf (getW hs e.1).ident := hall e (by simp)
    have hfold : (e :: rest).foldl
        (fun cds x => candRecordStep hs cds name x.1 x.2.1 x.2.2) cands =
        rest.foldl (fun cds x => candRecordStep hs cds name x.1 x.2.1 x.2.2)
          (candRecordStep hs cands name e.1 e.2.1 e.2.2) := rfl
    rw [hfold, hstep]
    by_cases hpref : c.weight ≤ e.2.1
    · -- the new occurrence is at least as heavy: it is recorded
      have hupd : candRecordStep hs cands name e.1 e.2.1 e.2.2 =
          updateHoistCandidates hs cands name e.1 e.2.1 e.2.2 := by
        unfold candRecordStep
        rw [hc]
        simp [hpref]
      by_cases hid : (getW hs c.node).ident = (getW hs e.1).ident
      · -- same ident: the entry is kept, only the location list grows
        have hupd2 := updateHoistCandidates_of_some hs cands name e.1 e.2.1 e.2.2 c hc
        rw [if_neg (by simpa using hid)] at hupd2
        have hget : mapGet (candRecordStep hs cands name e.1 e.2.1 e.2.2) name =
            some { c with candidates := c.candidates ++ [(e.2.2, e.1)] } := by
          rw [hupd, hupd2]; exact mapGet_mapSet_self _ _ _
        have hweq : c.weight = e.2.1 := by
          rw [hwf, hid, ← he]
        rw [if_pos (show best.2.1 ≤ e.2.1 by rw [← hw]; exact hpref)]
        exact ih _ _ e hget (by simpa using hwf) (by simpa using hweq)
          (by simpa using hid) hrest
      · -- different ident: the entry is replaced outright
        have hupd2 := updateHoistCandidates_of_some hs cands name e.1 e.2.1 e.2.2 c hc
        rw [if_pos (by simpa using hid)] at hupd2
        have hget : mapGet (candRecordStep hs cands name e.1 e.2.1 e.2.2) name =
            some { node := e.1, weight := e.2.1, candidates := [(e.2.2, e.1)] } := by
          rw [hupd, hupd2]; exact mapGet_mapSet_self _ _ _
        rw [if_pos (show best.2.1 ≤ e.2.1 by rw [← hw]; exact hpref)]
        exact ih _ _ e hget (by simpa using he) rfl rfl hrest
    · -- strictly lighter: the occurrence is not preferred, nothing changes
      have hupd : candRecordStep hs cands name e.1 e.2.1 e.2.2 = cands := by
        unfold candRecordStep
        rw [hc]
        simp [hpref]
      rw [hupd, if_neg (show ¬ best.2.1 ≤ e.2.1 by rw [← hw]; exact hpref)]
      exact ih cands c best hc hwf hw hi hrest

/-- **C2 (amended).** Over any sequence of qualifying occurrences for a
name (those passing the peer, ident, availability and dependency
predicates — each carrying its node, its ancestor-set weight, and its node
path), the candidate chosen by the source's recording discipline has the
largest weight among all occurrences, and its Ident is that of the *last*
occurrence whose weight equals the running maximum: on an equal-weight tie
between distinct Idents, the later occurrence replaces the earlier one. -/
theorem popularity_chooses_last_heaviest (hs : HS) (weightOf : String → Nat)
    (name : PName) (cands0 : CandMap) (e0 : Nat × Nat × List Nat)
    (rest : List (Nat × Nat × List Nat)) (h0 : mapGet cands0 name = none)
    (hall : ∀ e ∈ e0 :: rest, e.2.1 = weightOf (getW hs e.1).ident) :
    ∃ c', mapGet ((e0 :: rest).foldl
        (fun cds e => candRecordStep hs cds name e.1 e.2.1 e.2.2) cands0) name = some c'
      ∧ c'.weight = (lastHeaviest e0 rest).2.1
      ∧ (getW hs c'.node).ident = (getW hs (lastHeaviest e0 rest).1).ident
      ∧ e0.2.1 ≤ c'.weight ∧ ∀ e ∈ rest, e.2.1 ≤ c'.weight := by
  have hupd : candRecordStep hs cands0 name e0.1 e0.2.1 e0.2.2 =
      mapSet cands0 name { node := e0.1, weight := e0.2.1, candidates := [(e0.2.2, e0.1)] } := by
    unfold candRecordStep
    rw [h0]
    simp [updateHoistCandidates_of_none hs cands0 name e0.1 e0.2.1 e0.2.2 h0]
  have hfold : (e0 :: rest).foldl
      (fun cds e => candRecordStep hs cds name e.1 e.2.1 e.2.2) cands0 =
      rest.foldl (fun cds e => candRecordStep hs cds name e.1 e.2.1 e.2.2)
        (candRecordStep hs cands0 name e0.1 e0.2.1 e0.2.2) := rfl
  have hget : mapGet (candRecordStep hs cands0 name e0.1 e0.2.1 e0.2.2) name =
      some { node := e0.1, weight := e0.2.1, candidates := [(e0.2.2, e0.1)] } := by
    rw [hupd]; exact mapGet_mapSet_self _ _ _
  have he0 : e0.2.1 = weightOf (getW hs e0.1).ident := hall e0 (by simp)
  have hrest : ∀ x ∈ rest, x.2.1 = weightOf (getW hs x.1).ident := by
    intro x hx; exact hall x (by simp [hx])
  obtain ⟨c', hc', hw', hi'⟩ := candRecordStep_fold_inv hs weightOf name rest
    (candRecordStep hs cands0 name e0.1 e0.2.1 e0.2.2)
    { node := e0.1, weight := e0.2.1, candidates := [(e0.2.2, e0.1)] } e0
    hget (by simpa using he0) rfl rfl hrest
  rw [hfold]
  refine ⟨c', hc', hw', hi', ?_, ?_⟩
  · rw [hw']; exact (lastHeaviest_ge e0 rest).1
  · intro e he1
    rw [hw']; exact (lastHeaviest_ge e0 rest).2 e he1

/-- Witness for the amended C2 theorem: two occurrences of name `P` with
equal weight and distinct idents (`P@1` then `P@2`); the fold keeps the
later one. -/
theorem popularity_chooses_last_heaviest_witness :
    ∃ c', mapGet ([((2 : Nat), (1 : Nat), ([] : List Nat)), (3, 1, [])].foldl
        (fun cds e => candRecordStep cexSelfCheckHS cds "P" e.1 e.2.1 e.2.2) []) "P" = some c'
      ∧ c'.weight = (lastHeaviest (2, 1, []) [((3 : Nat), (1 : Nat), ([] : List Nat))]).2.1
      ∧ (getW cexSelfCheckHS c'.node).ident =
          (getW cexSelfCheckHS (lastHeaviest (2, 1, [])
            [((3 : Nat), (1 : Nat), ([] : List Nat))]).1).ident
      ∧ (2, 1, ([] : List Nat)).2.1 ≤ c'.weight
      ∧ ∀ e ∈ [((3 : Nat), (1 : Nat), ([] : List Nat))], e.2.1 ≤ c'.weight :=
  popularity_chooses_last_heaviest cexSelfCheckHS (fun _ => 1) "P" [] (2, 1, [])
    [(3, 1, [])] rfl (by decide)

/-- A generic invariant rule for the loop combinator: if every successful
body step relates its input state to its output state by a reflexive and
transitive `P`, so does the whole loop. -/
theorem loopGo_inv {σ α : Type} (P : σ → σ → Prop) (step : σ → α → HRes σ)
    (hrefl : ∀ s, P s s) (htrans : ∀ a b c, P a b → P b c → P a c)
    (hstep : ∀ s x s', step s x = .ok s' → P s s') :
    ∀ (xs : List α) (s s' : σ), loopGo step xs s = .ok s' → P s s' := by
  intro xs
  induction xs with
  | nil =>
    intro s s' h
    simp only [loopGo] at h
    cases h
    exact hrefl _
  | cons x rest ih =>
    intro s s' h
    simp only [loopGo] at h
    cases hx : step s x with
    | ok s1 =>
      rw [hx] at h
      exact htrans _ _ _ (hstep s x s1 hx) (ih s1 s' h)
    | thrown e => rw [hx] at h; cases h
    | fuelOut => rw [hx] at h; cases h

theorem mapGet_mapSet_ne {κ α : Type} [DecidableEq κ] (m : List (κ × α)) (k k1 : κ)
    (v : α) (h : k ≠ k1) : mapGet (mapSet m k v) k1 = mapGet m k1 := by
  induction m with
  | nil => simp [mapSet, mapGet, h]
  | cons p rest ih =>
    by_cases hp : p.1 = k
    · simp [mapSet, mapGet, hp, h]
    · simp [mapSet, mapGet, hp, ih]

/-- The visible-dependency overlay never writes a peer-named key: for a
name in `peerNames`, the overlaid map and the parent map agree. -/
theorem overlayNonPeerDeps_peer_agrees (hs : HS) (peerNames : List PName)
    (deps : DepMap) (acc : DepMap) (p : PName) (hp : setHas peerNames p = true) :
    mapGet (overlayNonPeerDeps hs peerNames deps acc) p = mapGet acc p := by
  induction deps generalizing acc with
  | nil => rfl
  | cons d rest ih =>
    simp only [overlayNonPeerDeps]
    by_cases hpeer : setHas peerNames (getW hs d.2).name = true
    · rw [if_pos hpeer]
      exact ih acc
    · rw [if_neg hpeer]
      rw [ih (mapSet acc (getW hs d.2).name d.2)]
      refine mapGet_mapSet_ne _ _ _ _ ?_
      intro hk
      exact hpeer (hk ▸ hp)

/-- `checkOrigDeps` with a visible map that agrees with the parent map on
all peer names returns successfully and appends only require-promise
entries. -/
theorem checkOrigDeps_no_peer_entries (hs : HS) (node : WNode)
    (parentDeps dependencies : DepMap) (path : String)
    (hagree : ∀ p, setHas node.peerNames p = true →
      mapGet dependencies p = mapGet parentDeps p) :
    ∀ (origs : List (PName × Nat)) (log : List CheckEntry),
      ∃ log', checkOrigDeps hs node parentDeps dependencies path origs log = .ok log'
        ∧ ∀ x ∈ log', x ∈ log ∨ x.isBrokenPeer = false := by
  intro origs
  induction origs with
  | nil =>
    intro log
    exact ⟨log, rfl, fun x hx => Or.inl hx⟩
  | cons o rest ih =>
    intro log
    simp only [checkOrigDeps]
    by_cases hpeer : setHas node.peerNames (getW hs o.2).name = true
    · rw [if_pos hpeer]
      have heq := hagree _ hpeer
      rw [if_neg (by simp [heq])]
      exact ih log
    · rw [if_neg hpeer]
      cases hdep : mapGet dependencies (getW hs o.2).name with
      | none =>
        dsimp only
        obtain ⟨log', h1, h2⟩ := ih (log ++ [.requireMissing path (getW hs o.2).locator])
        refine ⟨log', h1, ?_⟩
        intro x hx
        rcases h2 x hx with hx1 | hx1
        · rw [List.mem_append] at hx1
          rcases hx1 with hx1 | hx1
          · exact Or.inl hx1
          · right
            simp only [List.mem_singleton] at hx1
            rw [hx1]
            rfl
        · exact Or.inr hx1
      | some depId =>
        dsimp only
        by_cases hident : (getW hs depId).ident ≠ (getW hs o.2).ident
        · rw [if_pos hident]
          obtain ⟨log', h1, h2⟩ :=
            ih (log ++ [.requireMismatch path (getW hs o.2).ident (getW hs depId).ident])
          refine ⟨log', h1, ?_⟩
          intro x hx
          rcases h2 x hx with hx1 | hx1
          · rw [List.mem_append] at hx1
            rcases hx1 with hx1 | hx1
            · exact Or.inl hx1
            · right
              simp only [List.mem_singleton] at hx1
              rw [hx1]
              rfl
          · exact Or.inr hx1
        · rw [if_neg hident]
          exact ih log

/-- `checkNode` appends only require-promise entries to the log: the peer
branch compares two equal values and never fires. -/
theorem checkNode_no_peer_entries :
    ∀ (fuel : Nat) (hs : HS) (nodeId : Nat) (parentDeps : DepMap) (seen parents : List Nat)
      (log : List CheckEntry) (seen' : List Nat) (log' : List CheckEntry),
      checkNode fuel hs nodeId parentDeps seen parents log = .ok (seen', log') →
      ∀ x ∈ log', x ∈ log ∨ x.isBrokenPeer = false := by
  intro fuel
  induction fuel with
  | zero =>
    intro hs nodeId parentDeps seen parents log seen' log' h
    cases h
  | succ fuel ih =>
    intro hs nodeId parentDeps seen parents log seen' log' h
    simp only [checkNode] at h
    by_cases h1 : setHas seen nodeId = true
    · rw [if_pos h1] at h
      cases h
      exact fun x hx => Or.inl hx
    · rw [if_neg h1] at h
      by_cases h2 : setHas parents nodeId = true
      · rw [if_pos h2] at h
        cases h
        exact fun x hx => Or.inl hx
      · rw [if_neg h2] at h
        have hagree : ∀ p, setHas (getW hs nodeId).peerNames p = true →
            mapGet (overlayNonPeerDeps hs (getW hs nodeId).peerNames
              (getW hs nodeId).dependencies parentDeps) p = mapGet parentDeps p :=
          fun p hp => overlayNonPeerDeps_peer_agrees hs _ _ _ p hp
        obtain ⟨log1, hlog1, hprop1⟩ := checkOrigDeps_no_peer_entries hs (getW hs nodeId)
          parentDeps _ (checkTreePath hs parents nodeId) hagree
          (getW hs nodeId).originalDependencies log
        rw [hlog1] at h
        have hloop := loopGo_inv
          (fun (s s' : List Nat × List CheckEntry) =>
            ∀ x ∈ s'.2, x ∈ s.2 ∨ x.isBrokenPeer = false)
          _ (fun s x hx => Or.inl hx)
          (fun a b c hab hbc x hx => by
            rcases hbc x hx with hx1 | hx1
            · exact hab x hx1
            · exact Or.inr hx1)
          (fun s depId s' hstep => by
            by_cases hp : setHas (getW hs nodeId).peerNames (getW hs depId).name = true
            · rw [if_pos hp] at hstep
              cases hstep
              exact fun x hx => Or.inl hx
            · rw [if_neg hp] at hstep
              exact ih hs depId _ s.1 (setAdd parents nodeId) s.2 s'.1 s'.2 hstep)
          _ _ _ h
        intro x hx
        rcases hloop x hx with hx1 | hx1
        · exact hprop1 x hx1
        · exact Or.inr hx1

theorem renderCheckEntry_ne_empty (e : CheckEntry) : renderCheckEntry e ≠ "" := by
  have hlen : 0 < (renderCheckEntry e).length := by
    cases e with
    | brokenPeer p x f =>
      have h1 : (0 : Nat) < " but found ".length := by decide
      simp only [renderCheckEntry, String.length_append]
      omega
    | requireMissing p l =>
      have h1 : (0 : Nat) < " found".length := by decide
      simp only [renderCheckEntry, String.length_append]
      omega
    | requireMismatch p a b =>
      have h1 : (0 : Nat) < ", but found: ".length := by decide
      simp only [renderCheckEntry, String.length_append]
      omega
  intro h
  rw [h] at hlen
  simp at hlen

theorem joinLines_eq_empty_iff (l : List String) (h : ∀ s ∈ l, s ≠ "") :
    (joinLines l = "" ↔ l = []) := by
  cases l with
  | nil => simp [joinLines]
  | cons s rest =>
    cases rest with
    | nil =>
      simp only [joinLines]
      constructor
      · intro hs
        exact absurd hs (h s (by simp))
      · intro hs
        cases hs
    | cons t rest2 =>
      simp only [joinLines]
      constructor
      · intro hs
        have : (s ++ "\n" ++ joinLines (t :: rest2)).length = 0 := by rw [hs]; rfl
        simp [String.length_append] at this
        exact absurd this.1.2 (by decide)
      · intro hs
        cases hs

/-- **C3 (amended).** The `selfCheck` log never contains a broken-peer
entry (the peer branch compares the parent-visible resolution with itself),
and the rendered diagnostic string is empty exactly when the traversal
recorded no (require-promise) entries. -/
theorem selfCheck_empty_iff_no_require_breaks (fuel : Nat) (hs : HS) (rootId : Nat)
    (s : String) (log : List CheckEntry)
    (hentries : selfCheckEntries fuel hs rootId = .ok log)
    (hstr : selfCheck fuel hs rootId = .ok s) :
    (∀ e ∈ log, e.isBrokenPeer = false) ∧ (s = "" ↔ log = []) := by
  have hlog : ∀ e ∈ log, e.isBrokenPeer = false := by
    unfold selfCheckEntries at hentries
    cases hcheck : checkNode fuel hs rootId (getW hs rootId).dependencies [] [] [] with
    | ok r =>
      rw [hcheck] at hentries
      cases hentries
      intro e he
      rcases checkNode_no_peer_entries fuel hs rootId (getW hs rootId).dependencies
        [] [] [] r.1 r.2 (by rw [hcheck]) e he with h1 | h1
      · cases h1
      · exact h1
    | thrown e => rw [hcheck] at hentries; cases hentries
    | fuelOut => rw [hcheck] at hentries; cases hentries
  refine ⟨hlog, ?_⟩
  unfold selfCheck at hstr
  rw [hentries] at hstr
  cases hstr
  rw [joinLines_eq_empty_iff _ (by
    intro x hx
    rw [List.mem_map] at hx
    obtain ⟨e, _, he⟩ := hx
    rw [← he]
    exact renderCheckEntry_ne_empty e)]
  simp

/-- Witness for the amended C3 theorem on a store with one broken require
promise: the log holds one (require) entry and the string is non-empty. -/
theorem selfCheck_empty_iff_no_require_breaks_witness :
    (∀ e ∈ [CheckEntry.requireMissing ".→A@1" "B@1"], e.isBrokenPeer = false)
    ∧ ((".→A@1 - broken require promise: no required dependency B@1 found" : String) = ""
        ↔ [CheckEntry.requireMissing ".→A@1" "B@1"] = []) :=
  selfCheck_empty_iff_no_require_breaks 40 cexBrokenRequireHS 0
    ".→A@1 - broken require promise: no required dependency B@1 found"
    [CheckEntry.requireMissing ".→A@1" "B@1"] (by decide) (by decide)

theorem computeHCrecord_parents (ctx : SearchCtx) (st : SearchSt) (nid : Nat)
    (path : List Nat) (pid : Nat) (info : HCInfo) :
    (computeHCrecord ctx st nid path pid info).parents = st.parents := by
  unfold computeHCrecord
  dsimp only
  split
  · rfl
  · split
    · split
      · rfl
      · rfl
    · rfl

theorem computeHCrecord_seen (ctx : SearchCtx) (st : SearchSt) (nid : Nat)
    (path : List Nat) (pid : Nat) (info : HCInfo) :
    (computeHCrecord ctx st nid path pid info).seen = st.seen := by
  unfold computeHCrecord
  dsimp only
  split
  · rfl
  · split
    · split
      · rfl
      · rfl
    · rfl

theorem computeHCrecord_hs (ctx : SearchCtx) (st : SearchSt) (nid : Nat)
    (path : List Nat) (pid : Nat) (info : HCInfo) :
    (computeHCrecord ctx st nid path pid info).hs = st.hs ∨
      ∃ r, (computeHCrecord ctx st nid path pid info).hs =
        setW st.hs pid { getW st.hs pid with reasons := r } := by
  unfold computeHCrecord
  dsimp only
  split
  · exact Or.inl rfl
  · split
    · split
      · exact Or.inr ⟨_, rfl⟩
      · exact Or.inl rfl
    · exact Or.inl rfl

theorem computeHCrecord_cands (ctx : SearchCtx) (st : SearchSt) (nid : Nat)
    (path : List Nat) (pid : Nat) (info : HCInfo) :
    (computeHCrecord ctx st nid path pid info).cands = st.cands ∨
      (info.isHoistable = true ∧
        (computeHCrecord ctx st nid path pid info).cands =
          updateHoistCandidates st.hs st.cands (getW st.hs nid).name nid
            info.weight path) := by
  unfold computeHCrecord
  dsimp only
  split
  · next hh => exact Or.inr ⟨hh, rfl⟩
  · split
    · split
      · exact Or.inl rfl
      · exact Or.inl rfl
    · exact Or.inl rfl

/-- A hoistable node passed the ident-compatibility predicate: if it
shares the root's name, it shares the root's ident. -/
theorem computeHCinfo_hoistable_compat (ctx : SearchCtx) (st : SearchSt) (nid : Nat)
    (anc : List String) (h : (computeHCinfo ctx st nid anc).isHoistable = true) :
    (getW st.hs ctx.rootId).name = (getW st.hs nid).name →
      (getW st.hs ctx.rootId).ident = (getW st.hs nid).ident := by
  intro hname
  unfold computeHCinfo at h
  dsimp only at h
  simp only [Bool.and_eq_true] at h
  have hcomp := h.1.1.1.1.2
  rw [hname] at hcomp
  simp at hcomp
  exact hcomp

/-- Case analysis of one successful `computeHoistCandidates` step. -/
theorem computeHC_succ_elim (fuel : Nat) (ctx : SearchCtx) (st : SearchSt)
    (path : List Nat) (nid : Nat) (st' : SearchSt)
    (h : computeHC (fuel + 1) ctx st path nid = .ok st') :
    ∃ (t : Tupl) (ps : List Tupl) (st1 : SearchSt),
      st.parents = t :: ps
      ∧ st1.parents = st.parents ∧ st1.seen = st.seen
      ∧ (st1.hs = st.hs ∨
          ∃ r, st1.hs = setW st.hs t.node { getW st.hs t.node with reasons := r })
      ∧ (st1.cands = st.cands ∨
          ∃ w, ((getW st.hs ctx.rootId).name = (getW st.hs nid).name →
              (getW st.hs ctx.rootId).ident = (getW st.hs nid).ident)
            ∧ st1.cands = updateHoistCandidates st.hs st.cands (getW st.hs nid).name
                nid w path)
      ∧ (st' = st1 ∨
          ∃ st3, loopGo (fun (s : SearchSt) depId =>
              if (! setHas (getW s.hs nid).peerNames (getW s.hs depId).name) &&
                  (! setHas path depId) then
                computeHC fuel ctx s (path ++ [nid]) depId
              else .ok s)
            (mapValues (getW st.hs nid).dependencies)
            { st1 with
              seen := setAdd st1.seen (getW st.hs nid).locator,
              parents := { parent := t.node, node := nid } :: st1.parents } = .ok st3
            ∧ st' = { st3 with parents := st3.parents.tail }) := by
  simp only [computeHC] at h
  cases hamap : mapGet ctx.amap (getW st.hs nid).ident with
  | none => rw [hamap] at h; cases h
  | some anc =>
    rw [hamap] at h
    cases hps : st.parents with
    | nil => rw [hps] at h; cases h
    | cons t ps =>
      rw [hps] at h
      dsimp only at h
      refine ⟨t, ps, computeHCrecord ctx st nid path t.node (computeHCinfo ctx st nid anc),
        rfl, (computeHCrecord_parents _ _ _ _ _ _).trans hps,
        computeHCrecord_seen _ _ _ _ _ _, computeHCrecord_hs _ _ _ _ _ _, ?_, ?_⟩
      · rcases computeHCrecord_cands ctx st nid path t.node (computeHCinfo ctx st nid anc)
          with hc | ⟨hh, hc⟩
        · exact Or.inl hc
        · exact Or.inr ⟨_, computeHCinfo_hoistable_compat ctx st nid anc hh, hc⟩
      · by_cases hseen : setHas st.seen (getW st.hs nid).locator = true
        · rw [if_pos hseen] at h
          cases h
          exact Or.inl rfl
        · rw [if_neg hseen] at h
          cases hloop : loopGo (fun (s : SearchSt) depId =>
              if (! setHas (getW s.hs nid).peerNames (getW s.hs depId).name) &&
                  (! setHas path depId) then
                computeHC fuel ctx s (path ++ [nid]) depId
              else .ok s)
            (mapValues (getW st.hs nid).dependencies)
            { computeHCrecord ctx st nid path t.node (computeHCinfo ctx st nid anc) with
              seen := setAdd (computeHCrecord ctx st nid path t.node
                (computeHCinfo ctx st nid anc)).seen (getW st.hs nid).locator,
              parents := { parent := t.node, node := nid } ::
                (computeHCrecord ctx st nid path t.node (computeHCinfo ctx st nid anc)).parents } with
          | ok st3 =>
            rw [hloop] at h
            cases h
            exact Or.inr ⟨st3, rfl, rfl⟩
          | thrown e => rw [hloop] at h; cases h
          | fuelOut => rw [hloop] at h; cases h

theorem setW_work_length (hs : HS) (i : Nat) (n : WNode) :
    (setW hs i n).work.length = hs.work.length := by
  simp [setW]

theorem getW_setW_ne (hs : HS) (i j : Nat) (n : WNode) (h : i ≠ j) :
    getW (setW hs i n) j = getW hs j := by
  simp only [getW, setW, List.getD]
  rw [List.get?_set_ne n hs.work h]

theorem getW_setW_self (hs : HS) (i : Nat) (n : WNode) (h : i < hs.work.length) :
    getW (setW hs i n) i = n := by
  simp only [getW, setW, List.getD]
  rw [List.get?_set_eq_of_lt n h]
  rfl

theorem setW_preserves_names_idents (hs : HS) (pid : Nat) (r : List (PName × ReasonEntry)) :
    NamesIdentsPreserved hs (setW hs pid { getW hs pid with reasons := r }) := by
  intro j
  by_cases h : pid = j
  · subst h
    by_cases hlt : pid < hs.work.length
    · rw [getW_setW_self hs pid _ hlt]
      exact ⟨rfl, rfl⟩
    · have heq : (setW hs pid { getW hs pid with reasons := r }).work = hs.work := by
        simp only [setW]
        exact List.set_eq_of_length_le (Nat.le_of_not_lt hlt)
      simp only [getW] at heq ⊢
      rw [heq]
      exact ⟨rfl, rfl⟩
  · rw [getW_setW_ne hs pid j _ h]
    exact ⟨rfl, rfl⟩

theorem namesIdentsPreserved_refl (h : HS) : NamesIdentsPreserved h h :=
  fun _ => ⟨rfl, rfl⟩

theorem namesIdentsPreserved_trans (a b c : HS) (h1 : NamesIdentsPreserved a b)
    (h2 : NamesIdentsPreserved b c) : NamesIdentsPreserved a c := by
  intro j
  exact ⟨(h2 j).1.trans (h1 j).1, (h2 j).2.trans (h1 j).2⟩

theorem candOK_transport (h1 h2 : HS) (rootId : Nat) (cands : CandMap)
    (hok : CandOK h1 rootId cands) (hpres : NamesIdentsPreserved h1 h2) :
    CandOK h2 rootId cands := by
  intro p hp
  obtain ⟨ha, hb⟩ := hok p hp
  constructor
  · intro hname
    rw [(hpres rootId).2, (hpres (p.2).node).2]
    exact ha (((hpres rootId).1.symm.trans hname).trans (hpres (p.2).node).1)
  · intro c hc hname
    rw [(hpres rootId).2, (hpres c.2).2]
    exact hb c hc (((hpres rootId).1.symm.trans hname).trans (hpres c.2).1)

theorem mem_mapSet {κ α : Type} [DecidableEq κ] (m : List (κ × α)) (k : κ) (v : α)
    (p : κ × α) (hp : p ∈ mapSet m k v) : p ∈ m ∨ p = (k, v) := by
  induction m with
  | nil =>
    simp only [mapSet, List.mem_singleton] at hp
    exact Or.inr hp
  | cons q rest ih =>
    simp only [mapSet] at hp
    by_cases hq : q.1 = k
    · rw [if_pos hq] at hp
      rcases List.mem_cons.mp hp with h | h
      · exact Or.inr h
      · exact Or.inl (List.mem_cons_of_mem _ h)
    · rw [if_neg hq] at hp
      rcases List.mem_cons.mp hp with h | h
      · exact Or.inl (h ▸ List.mem_cons_self _ _)
      · rcases ih h with h1 | h1
        · exact Or.inl (List.mem_cons_of_mem _ h1)
        · exact Or.inr h1

theorem mapGet_mem {κ α : Type} [DecidableEq κ] (m : List (κ × α)) (k : κ) (v : α)
    (h : mapGet m k = some v) : (k, v) ∈ m := by
  induction m with
  | nil => cases h
  | cons q rest ih =>
    simp only [mapGet] at h
    by_cases hq : q.1 = k
    · rw [if_pos hq] at h
      cases h
      rw [← hq]
      exact List.mem_cons_self _ _
    · rw [if_neg hq] at h
      exact List.mem_cons_of_mem _ (ih h)

/-- Recording a compatible node preserves candidate compatibility. -/
theorem updateHoistCandidates_candOK (hs : HS) (rootId : Nat) (cands : CandMap)
    (name : PName) (nid w : Nat) (path : List Nat)
    (hok : CandOK hs rootId cands)
    (hcomp : (getW hs rootId).name = (getW hs nid).name →
      (getW hs rootId).ident = (getW hs nid).ident) :
    CandOK hs rootId (updateHoistCandidates hs cands name nid w path) := by
  intro p hp
  cases hc : mapGet cands name with
  | none =>
    rw [updateHoistCandidates_of_none hs cands name nid w path hc] at hp
    rcases mem_mapSet _ _ _ _ hp with h | h
    · exact hok p h
    · rw [h]
      refine ⟨hcomp, ?_⟩
      intro c hcm
      simp only [List.mem_singleton] at hcm
      rw [hcm]
      exact hcomp
  | some c0 =>
    rw [updateHoistCandidates_of_some hs cands name nid w path c0 hc] at hp
    have hmem0 : (name, c0) ∈ cands := mapGet_mem _ _ _ hc
    obtain ⟨h0a, h0b⟩ := hok (name, c0) hmem0
    rcases mem_mapSet _ _ _ _ hp with h | h
    · exact hok p h
    · rw [h]
      by_cases hid : (getW hs c0.node).ident ≠ (getW hs nid).ident
      · rw [if_pos hid]
        refine ⟨hcomp, ?_⟩
        intro c hcm
        simp only [List.mem_singleton] at hcm
        rw [hcm]
        exact hcomp
      · rw [if_neg hid]
        refine ⟨h0a, ?_⟩
        intro c hcm
        rw [List.mem_append] at hcm
        rcases hcm with hcm | hcm
        · exact h0b c hcm
        · simp only [List.mem_singleton] at hcm
          rw [hcm]
          exact hcomp

/-- The candidate search preserves names and idents on the heap and
ident-compatibility of the candidate map. -/
theorem computeHC_candOK :
    ∀ (fuel : Nat) (ctx : SearchCtx) (st : SearchSt) (path : List Nat) (nid : Nat)
      (st' : SearchSt), computeHC fuel ctx st path nid = .ok st' →
      NamesIdentsPreserved st.hs st'.hs
      ∧ (CandOK st.hs ctx.rootId st.cands → CandOK st'.hs ctx.rootId st'.cands) := by
  intro fuel
  induction fuel with
  | zero => intro ctx st path nid st' h; cases h
  | succ fuel ih =>
    intro ctx st path nid st' h
    obtain ⟨t, ps, st1, -, -, -, hhs, hcands, hres⟩ :=
      computeHC_succ_elim fuel ctx st path nid st' h
    have hpres1 : NamesIdentsPreserved st.hs st1.hs := by
      rcases hhs with h1 | ⟨r, h1⟩
      · rw [h1]; exact namesIdentsPreserved_refl _
      · rw [h1]; exact setW_preserves_names_idents st.hs t.node r
    have hok1 : CandOK st.hs ctx.rootId st.cands → CandOK st1.hs ctx.rootId st1.cands := by
      intro hok
      rcases hcands with h1 | ⟨w, hcomp, h1⟩
      · rw [h1]; exact candOK_transport st.hs st1.hs _ _ hok hpres1
      · rw [h1]
        exact candOK_transport st.hs st1.hs _ _
          (updateHoistCandidates_candOK st.hs ctx.rootId st.cands _ nid w path hok hcomp)
          hpres1
    rcases hres with h1 | ⟨st3, hloop, h1⟩
    · rw [h1]
      exact ⟨hpres1, hok1⟩
    · have hstep := loopGo_inv
        (fun (a b : SearchSt) => NamesIdentsPreserved a.hs b.hs
          ∧ (CandOK a.hs ctx.rootId a.cands → CandOK b.hs ctx.rootId b.cands))
        _ (fun s => ⟨namesIdentsPreserved_refl _, id⟩)
        (fun a b c hab hbc =>
          ⟨namesIdentsPreserved_trans _ _ _ hab.1 hbc.1, fun hx => hbc.2 (hab.2 hx)⟩)
        (fun s depId s2 hstep => by
          by_cases hcond : ((! setHas (getW s.hs nid).peerNames (getW s.hs depId).name) &&
              (! setHas path depId)) = true
          · rw [if_pos hcond] at hstep
            exact ih ctx s (path ++ [nid]) depId s2 hstep
          · rw [if_neg hcond] at hstep
            cases hstep
            exact ⟨namesIdentsPreserved_refl _, id⟩)
        _ _ _ hloop
      rw [h1]
      exact ⟨namesIdentsPreserved_trans _ _ _ hpres1 hstep.1,
        fun hx => hstep.2 (hok1 hx)⟩

theorem setHas_iff_mem {α : Type} [DecidableEq α] (s : List α) (x : α) :
    setHas s x = true ↔ x ∈ s := by
  induction s with
  | nil => simp [setHas]
  | cons y rest ih =>
    simp only [setHas]
    by_cases h : y = x
    · simp [h]
    · simp only [if_neg h, ih, List.mem_cons]
      constructor
      · exact Or.inr
      · intro hx
        rcases hx with hx | hx
        · exact absurd hx.symm h
        · exact hx

theorem mem_setAdd_of_mem {α : Type} [DecidableEq α] (s : List α) (x y : α)
    (h : x ∈ s) : x ∈ setAdd s y := by
  unfold setAdd
  split
  · exact h
  · exact List.mem_append_left _ h

theorem mem_setAdd_self {α : Type} [DecidableEq α] (s : List α) (x : α) :
    x ∈ setAdd s x := by
  unfold setAdd
  split
  · next h => exact (setHas_iff_mem s x).mp h
  · exact List.mem_append_right _ (List.mem_singleton.mpr rfl)

theorem mem_foldl_setAdd_of_mem_acc {α : Type} [DecidableEq α] (l : List α)
    (acc : List α) (x : α) (h : x ∈ acc) : x ∈ l.foldl setAdd acc := by
  induction l generalizing acc with
  | nil => exact h
  | cons y rest ih => exact ih (setAdd acc y) (mem_setAdd_of_mem acc x y h)

theorem mem_foldl_setAdd {α : Type} [DecidableEq α] (l : List α) (acc : List α)
    (x : α) (h : x ∈ l) : x ∈ l.foldl setAdd acc := by
  induction l generalizing acc with
  | nil => cases h
  | cons y rest ih =>
    rcases List.mem_cons.mp h with h1 | h1
    · subst h1
      exact mem_foldl_setAdd_of_mem_acc rest (setAdd acc x) x (mem_setAdd_self acc x)
    · exact ih (setAdd acc y) h1

/-- Every candidate set returned by `getHoistCandidates` passed the
ident-compatibility predicate against the root. -/
theorem getHoistCandidates_compat (fuel : Nat) (hs : HS) (rootId : Nat)
    (rootNodePath : List Nat) (aDeps : DepMap) (amap : AncestorMap) (opts : HOptions)
    (hs1 : HS) (sets : List CandSet)
    (h : getHoistCandidates fuel hs rootId rootNodePath aDeps amap opts = .ok (hs1, sets)) :
    ∀ s ∈ sets,
      ((getW hs1 rootId).name = (getW hs1 s.node).name →
        (getW hs1 rootId).ident = (getW hs1 s.node).ident)
      ∧ ∀ c ∈ s.candidates,
          ((getW hs1 rootId).name = (getW hs1 c.2).name →
            (getW hs1 rootId).ident = (getW hs1 c.2).ident) := by
  set ctx : SearchCtx :=
    { rootId := rootId, rootNodePath := rootNodePath, ancestorDeps := aDeps,
      amap := amap, opts := opts } with hctx
  have h2 : (match loopGo (ghcTopStep fuel ctx)
      (mapValues (getW hs rootId).dependencies)
      ({ hs := hs, cands := [], parents := [],
         seen := [(getW hs rootId).locator] } : SearchSt) with
    | .ok st1 => HRes.ok (st1.hs, mapValues st1.cands)
    | .thrown e => HRes.thrown e
    | .fuelOut => HRes.fuelOut) = .ok (hs1, sets) := h
  clear h
  cases hloop : loopGo (ghcTopStep fuel ctx)
      (mapValues (getW hs rootId).dependencies)
      { hs := hs, cands := [], parents := [], seen := [(getW hs rootId).locator] } with
  | ok st1 =>
    rw [hloop] at h2
    cases h2
    have hstep := loopGo_inv
      (fun (a b : SearchSt) => NamesIdentsPreserved a.hs b.hs
        ∧ (CandOK a.hs ctx.rootId a.cands → CandOK b.hs ctx.rootId b.cands))
      (ghcTopStep fuel ctx)
      (fun s => ⟨namesIdentsPreserved_refl _, id⟩)
      (fun a b c hab hbc =>
        ⟨namesIdentsPreserved_trans _ _ _ hab.1 hbc.1, fun hx => hbc.2 (hab.2 hx)⟩)
      (fun s depId s2 hstep => by
        unfold ghcTopStep at hstep
        by_cases hpeer : setHas (getW s.hs ctx.rootId).peerNames (getW s.hs depId).name = true
        · rw [if_pos hpeer] at hstep
          cases hstep
          exact ⟨namesIdentsPreserved_refl _, id⟩
        · rw [if_neg hpeer] at hstep
          dsimp only at hstep
          cases hsub : loopGo (fun (s3 : SearchSt) subId =>
              if setHas (getW s3.hs depId).peerNames (getW s3.hs subId).name = true then .ok s3
              else computeHC fuel ctx s3 [depId] subId)
            (mapValues (getW s.hs depId).dependencies)
            { s with
              seen := setAdd s.seen (getW s.hs depId).locator,
              parents := { parent := ctx.rootId, node := depId } :: s.parents } with
          | ok st2 =>
            rw [hsub] at hstep
            cases hstep
            have hinner := loopGo_inv
              (fun (a b : SearchSt) => NamesIdentsPreserved a.hs b.hs
                ∧ (CandOK a.hs ctx.rootId a.cands → CandOK b.hs ctx.rootId b.cands))
              _
              (fun s3 => ⟨namesIdentsPreserved_refl _, id⟩)
              (fun a b c hab hbc =>
                ⟨namesIdentsPreserved_trans _ _ _ hab.1 hbc.1, fun hx => hbc.2 (hab.2 hx)⟩)
              (fun s3 subId s4 hstep2 => by
                by_cases hp2 : setHas (getW s3.hs depId).peerNames (getW s3.hs subId).name = true
                · rw [if_pos hp2] at hstep2
                  cases hstep2
                  exact ⟨namesIdentsPreserved_refl _, id⟩
                · rw [if_neg hp2] at hstep2
                  exact computeHC_candOK fuel ctx s3 [depId] subId s4 hstep2)
              _ _ _ hsub
            exact hinner
          | thrown e => rw [hsub] at hstep; cases hstep
          | fuelOut => rw [hsub] at hstep; cases hstep)
      _ _ _ hloop
    have hok : CandOK st1.hs rootId st1.cands :=
      hstep.2 (fun p hp => absurd hp (List.not_mem_nil p))
    intro s hs2
    rw [mapValues, List.mem_map] at hs2
    obtain ⟨p, hp, hps⟩ := hs2
    have := hok p hp
    rw [hps] at this
    exact this
  | thrown e => rw [hloop] at h2; cases h2
  | fuelOut => rw [hloop] at h2; cases h2

/-- **C4.** During hoist application (the root step `applyAtRoot`, as used
by `hoistTo` for every promoted candidate): when the root already has an
entry for the candidate's name, that entry is kept — the same node id,
never replaced — and afterwards its references contain every reference of
the candidate; when there is no entry, the candidate is inserted exactly
when its ident differs from the root's, and then (by the candidate's
ident-compatibility, established for every candidate by
`getHoistCandidates_compat`) the root does not share the candidate's name;
when the root itself has the candidate's ident, nothing is inserted. -/
theorem applyAtRoot_merge_or_insert (hs : HS) (rootId : Nat) (aDeps : DepMap)
    (candId : Nat) (hroot : rootId < hs.work.length)
    (hcomp : (getW hs rootId).name = (getW hs candId).name →
      (getW hs rootId).ident = (getW hs candId).ident) :
    (∀ h0, mapGet (getW hs rootId).dependencies (getW hs candId).name = some h0 →
      h0 < hs.work.length →
      mapGet (getW (applyAtRoot hs rootId aDeps candId).1 rootId).dependencies
          (getW hs candId).name = some h0
      ∧ ∀ ref ∈ (getW hs candId).references,
          ref ∈ (getW (applyAtRoot hs rootId aDeps candId).1 h0).references)
    ∧ (mapGet (getW hs rootId).dependencies (getW hs candId).name = none →
        (getW hs rootId).ident ≠ (getW hs candId).ident →
        mapGet (getW (applyAtRoot hs rootId aDeps candId).1 rootId).dependencies
            (getW hs candId).name = some candId
        ∧ (getW hs rootId).name ≠ (getW hs candId).name)
    ∧ (mapGet (getW hs rootId).dependencies (getW hs candId).name = none →
        (getW hs rootId).ident = (getW hs candId).ident →
        (applyAtRoot hs rootId aDeps candId).1 = hs) := by
  refine ⟨?_, ?_, ?_⟩
  · intro h0 hget hlt
    unfold applyAtRoot
    dsimp only
    rw [hget]
    dsimp only
    constructor
    · by_cases hne : h0 = rootId
      · subst hne
        rw [getW_setW_self hs h0 _ hroot]
        exact hget
      · rw [getW_setW_ne hs h0 rootId _ hne]
        exact hget
    · intro ref href
      rw [getW_setW_self hs h0 _ hlt]
      exact mem_foldl_setAdd _ _ _ href
  · intro hget hne
    unfold applyAtRoot
    dsimp only
    rw [hget]
    dsimp only
    rw [if_pos hne]
    refine ⟨?_, ?_⟩
    · rw [getW_setW_self hs rootId _ hroot]
      exact mapGet_mapSet_self _ _ _
    · intro hname
      exact hne (hcomp hname)
  · intro hget heq
    unfold applyAtRoot
    dsimp only
    rw [hget]
    dsimp only
    rw [if_neg (by simp [heq])]

/-- Witness for C4 on a concrete heap: the root (id 0) already holds an
entry for name `P` (id 2), a candidate `P@2` (id 3) is merged: the entry
is still id 2 and the candidate's reference has been merged. -/
theorem applyAtRoot_merge_or_insert_witness :
    mapGet (getW (applyAtRoot cexSelfCheckHS 0 [] 3).1 0).dependencies "P" = some 2
    ∧ "2" ∈ (getW (applyAtRoot cexSelfCheckHS 0 [] 3).1 2).references := by
  have h := applyAtRoot_merge_or_insert cexSelfCheckHS 0 [] 3 (by decide) (by decide)
  have h2 := h.1 2 (by decide) (by decide)
  exact ⟨h2.1, h2.2 "2" (by decide)⟩

/-- Witness for C7: a concrete virtualised reference. -/
theorem makeIdent_strips_virtual_prefix_example :
    makeIdent "ms" "virtual:1234#npm:2.1.3" = "ms@npm:2.1.3"
    ∧ makeLocator "ms" "virtual:1234#npm:2.1.3" = "ms@virtual:1234#npm:2.1.3" := by
  have h := makeIdent_strips_virtual_prefix "ms" "virtual:1234#npm:2.1.3"
  refine ⟨?_, h.1⟩
  have h2 := h.2.1 "virtual:1234".data "npm:2.1.3".data (by decide) (by decide)
  have : (makeIdent "ms" "virtual:1234#npm:2.1.3").data = "ms@npm:2.1.3".data := by
    rw [h2]; decide
  exact congrArg String.mk (by simp only [] at this; exact this)


theorem mapGet_mapSet_self_gen {κ α : Type} [DecidableEq κ] (m : List (κ × α)) (k : κ)
    (v : α) : mapGet (mapSet m k v) k = some v := by
  induction m with
  | nil => simp [mapSet, mapGet]
  | cons p rest ih =>
    by_cases h : p.1 = k
    · simp [mapSet, mapGet, h]
    · simp [mapSet, mapGet, h, ih]

theorem mapGet_mapSet_mono {κ α : Type} [DecidableEq κ] (m : List (κ × α)) (k : κ)
    (v : α) (hk : mapGet m k = none) :
    ∀ j c, mapGet m j = some c → mapGet (mapSet m k v) j = some c := by
  intro j c hj
  have hkj : k ≠ j := by
    intro he
    rw [he] at hk
    rw [hk] at hj
    cases hj
  rw [mapGet_mapSet_ne m k j v hkj]
  exact hj

theorem allocW_length (hs : HS) (n : WNode) :
    ((allocW hs n).1).work.length = hs.work.length + 1 := by
  simp [allocW]

theorem getW_allocW_lt (hs : HS) (n : WNode) (j : Nat) (h : j < hs.work.length) :
    getW (allocW hs n).1 j = getW hs j := by
  simp only [getW, allocW, List.getD]
  rw [List.get?_append h]

theorem getW_allocW_self (hs : HS) (n : WNode) :
    getW (allocW hs n).1 hs.work.length = n := by
  simp only [getW, allocW, List.getD]
  rw [List.get?_append_right (Nat.le_refl _)]
  simp

/-- `CloneNodeSpec` transports along a heap change that keeps the input store
and the node's work record, and a memo extension. -/
theorem cloneNodeSpec_transport (h1 h2 : HS) (m1 m2 : CloneMemo) (i w : Nat)
    (hinp : h2.inp = h1.inp) (hw : getW h2 w = getW h1 w)
    (hm : ∀ j c, mapGet m1 j = some c → mapGet m2 j = some c)
    (hsp : CloneNodeSpec h1 m1 i w) : CloneNodeSpec h2 m2 i w := by
  have hgi : ∀ j, getI h2 j = getI h1 j := by
    intro j
    simp [getI, hinp]
  obtain ⟨s1, s2, s3, s4, s5, s6, s7, s8, s9⟩ := hsp
  refine ⟨?_, ?_, ?_, ?_, ?_, ?_, ?_, ?_, ?_⟩
  · rw [hw, hgi]; exact s1
  · rw [hw, hgi]; exact s2
  · rw [hw, hgi]; exact s3
  · rw [hw, hgi]; exact s4
  · rw [hw, hgi]; exact s5
  · rw [hw]; exact s6
  · rw [hw]; exact s7
  · rw [hw]; exact s8
  · intro n c hc
    rw [hw] at hc
    obtain ⟨j, hj1, hj2⟩ := s9 n c hc
    exact ⟨j, hm j c hj1, by rw [hgi]; exact hj2⟩

/-- Linking a memoised child under a memoised parent preserves the cloner's
invariant. -/
theorem cloneInv_parentUpdate (hs : HS) (memo : CloneMemo) (inId wid parentW : Nat)
    (hinv : CloneInv hs memo)
    (hpw : ∃ pj, mapGet memo pj = some parentW)
    (hwid : mapGet memo inId = some wid) :
    CloneInv
      (setW hs parentW
        { getW hs parentW with
          dependencies := mapSet (getW hs parentW).dependencies ((getW hs wid).name) wid
          originalDependencies :=
            mapSet (getW hs parentW).originalDependencies ((getW hs wid).name) wid })
      memo := by
  obtain ⟨pj, hpj⟩ := hpw
  have hplt : parentW < hs.work.length := (hinv pj parentW hpj).1
  intro i w hw
  have hold := hinv i w hw
  refine ⟨by rw [setW_work_length]; exact hold.1, ?_⟩
  by_cases hwp : w = parentW
  · subst hwp
    have hgetw := getW_setW_self hs w
      { getW hs w with
        dependencies := mapSet (getW hs w).dependencies ((getW hs wid).name) wid
        originalDependencies :=
          mapSet (getW hs w).originalDependencies ((getW hs wid).name) wid } hplt
    obtain ⟨s1, s2, s3, s4, s5, s6, s7, s8, s9⟩ := hold.2
    refine ⟨?_, ?_, ?_, ?_, ?_, ?_, ?_, ?_, ?_⟩
    · rw [hgetw]; exact s1
    · rw [hgetw]; exact s2
    · rw [hgetw]; exact s3
    · rw [hgetw]; exact s4
    · rw [hgetw]; exact s5
    · rw [hgetw]
      show mapSet (getW hs w).dependencies ((getW hs wid).name) wid
        = mapSet (getW hs w).originalDependencies ((getW hs wid).name) wid
      rw [s6]
    · rw [hgetw]; exact s7
    · rw [hgetw]; exact s8
    · intro n c hc
      rw [hgetw] at hc
      have hc2 : (n, c) ∈ mapSet (getW hs w).dependencies ((getW hs wid).name) wid := hc
      rcases mem_mapSet _ _ _ _ hc2 with hmem | heq
      · obtain ⟨j, hj1, hj2⟩ := s9 n c hmem
        exact ⟨j, hj1, hj2⟩
      · cases heq
        exact ⟨inId, hwid, (hinv inId wid hwid).2.1⟩
  · exact cloneNodeSpec_transport hs _ memo memo i w rfl
      (getW_setW_ne hs parentW w _ (fun he => hwp he.symm)) (fun _ _ hh => hh) hold.2

/-- Allocating the work node for an unvisited input node and recording it in
the memo preserves the cloner's invariant. -/
theorem cloneInv_allocExtend (hs : HS) (memo : CloneMemo) (inId : Nat)
    (hinv : CloneInv hs memo) (hseen : mapGet memo inId = none) :
    CloneInv (allocW hs (mkWorkNode (getI hs inId))).1
      (mapSet memo inId hs.work.length) := by
  intro i w hw
  by_cases hi : inId = i
  · subst hi
    rw [mapGet_mapSet_self_gen] at hw
    injection hw with hw
    subst hw
    constructor
    · rw [allocW_length]
      exact Nat.lt_succ_self _
    · have hg := getW_allocW_self hs (mkWorkNode (getI hs inId))
      refine ⟨by rw [hg]; rfl, by rw [hg]; rfl, by rw [hg]; rfl, by rw [hg]; rfl,
        by rw [hg]; rfl, by rw [hg]; rfl, by rw [hg]; rfl, by rw [hg]; rfl, ?_⟩
      intro n c hc
      rw [hg] at hc
      exact absurd hc (by simp [mkWorkNode])
  · rw [mapGet_mapSet_ne memo inId i _ hi] at hw
    obtain ⟨hlt, hsp⟩ := hinv i w hw
    refine ⟨?_, cloneNodeSpec_transport hs _ memo _ i w rfl (getW_allocW_lt hs _ w hlt)
      (mapGet_mapSet_mono memo inId hs.work.length hseen) hsp⟩
    rw [allocW_length]
    omega

/-- The effect of the cloner's child loop, given the effect of each body call. -/
theorem cloneAddNode_loop (fuel wid : Nat)
    (hrec : ∀ (hs : HS) (memo : CloneMemo) (inId : Nat) (hs' : HS) (memo' : CloneMemo),
      cloneAddNode fuel hs memo inId wid = .ok (hs', memo') →
      CloneInv hs memo → (∃ q, mapGet memo q = some wid) →
      hs'.inp = hs.inp ∧ hs.work.length ≤ hs'.work.length
      ∧ (∀ i w, mapGet memo i = some w → mapGet memo' i = some w)
      ∧ CloneInv hs' memo') :
    ∀ (xs : List Nat) (s s' : HS × CloneMemo),
      loopGo (fun (s : HS × CloneMemo) d => cloneAddNode fuel s.1 s.2 d wid) xs s
        = .ok s' →
      CloneInv s.1 s.2 → (∃ q, mapGet s.2 q = some wid) →
      s'.1.inp = s.1.inp ∧ s.1.work.length ≤ s'.1.work.length
      ∧ (∀ i w, mapGet s.2 i = some w → mapGet s'.2 i = some w)
      ∧ CloneInv s'.1 s'.2 := by
  intro xs s s' hl hs0 hb0
  have hP := loopGo_inv
    (fun a b : HS × CloneMemo =>
      (CloneInv a.1 a.2 ∧ (∃ q, mapGet a.2 q = some wid)) →
        (b.1.inp = a.1.inp ∧ a.1.work.length ≤ b.1.work.length
         ∧ (∀ i w, mapGet a.2 i = some w → mapGet b.2 i = some w)
         ∧ CloneInv b.1 b.2 ∧ (∃ q, mapGet b.2 q = some wid)))
    (fun (s : HS × CloneMemo) d => cloneAddNode fuel s.1 s.2 d wid)
    (fun _ hh => ⟨rfl, Nat.le_refl _, fun _ _ hw => hw, hh.1, hh.2⟩)
    (fun a b c hab hbc hh => by
      obtain ⟨h1, h2, h3, h4, h5⟩ := hab hh
      obtain ⟨g1, g2, g3, g4, g5⟩ := hbc ⟨h4, h5⟩
      exact ⟨g1.trans h1, Nat.le_trans h2 g2, fun i w hw => g3 i w (h3 i w hw), g4, g5⟩)
    (fun a x a' hstep hh => by
      obtain ⟨h1, h2, h3, h4⟩ := hrec a.1 a.2 x a'.1 a'.2 hstep hh.1 hh.2
      obtain ⟨q, hq⟩ := hh.2
      exact ⟨h1, h2, h3, h4, ⟨q, h3 q wid hq⟩⟩)
    xs s s' hl
  obtain ⟨h1, h2, h3, h4, _⟩ := hP ⟨hs0, hb0⟩
  exact ⟨h1, h2, h3, h4⟩

/-- The effect of one cloner call: the input store is untouched, the work
store only grows, the memo only gains bindings, and the cloner's invariant is
preserved. -/
theorem cloneAddNode_inv :
    ∀ (fuel : Nat) (hs : HS) (memo : CloneMemo) (inId parentW : Nat) (hs' : HS)
      (memo' : CloneMemo),
      cloneAddNode fuel hs memo inId parentW = .ok (hs', memo') →
      CloneInv hs memo → (∃ pj, mapGet memo pj = some parentW) →
      hs'.inp = hs.inp ∧ hs.work.length ≤ hs'.work.length
      ∧ (∀ i w, mapGet memo i = some w → mapGet memo' i = some w)
      ∧ CloneInv hs' memo' := by
  intro fuel
  induction fuel with
  | zero =>
    intro hs memo inId parentW hs' memo' h _ _
    exact absurd h (by simp [cloneAddNode])
  | succ fuel' ih =>
    intro hs memo inId parentW hs' memo' h hinv hpar
    simp only [cloneAddNode, allocW] at h
    cases hseen : mapGet memo inId with
    | some wid =>
      rw [hseen] at h
      simp only [Option.isSome_some, if_true] at h
      cases h
      refine ⟨rfl, ?_, fun _ _ hw => hw, ?_⟩
      · rw [setW_work_length]
      · exact cloneInv_parentUpdate hs memo inId wid parentW hinv hpar hseen
    | none =>
      rw [hseen] at h
      simp only [Option.isSome_none, Bool.false_eq_true, if_false] at h
      obtain ⟨pj, hpj⟩ := hpar
      have hmono1 := mapGet_mapSet_mono memo inId hs.work.length hseen
      have hwid1 : mapGet (mapSet memo inId hs.work.length) inId = some hs.work.length :=
        mapGet_mapSet_self_gen _ _ _
      have hinvA := cloneInv_allocExtend hs memo inId hinv hseen
      have hinv2 := cloneInv_parentUpdate (allocW hs (mkWorkNode (getI hs inId))).1
        (mapSet memo inId hs.work.length) inId hs.work.length parentW hinvA
        ⟨pj, hmono1 pj parentW hpj⟩ hwid1
      obtain ⟨b1, b2, b3, b4⟩ := cloneAddNode_loop fuel' hs.work.length
        (fun h1 m1 i1 h2 m2 he hi hb => ih h1 m1 i1 hs.work.length h2 m2 he hi hb)
        _ _ _ h hinv2 ⟨inId, hwid1⟩
      refine ⟨b1, ?_, fun i w hw => b3 i w (hmono1 i w hw), b4⟩
      refine Nat.le_trans ?_ b2
      rw [setW_work_length]
      show hs.work.length ≤ (hs.work ++ [mkWorkNode (getI hs inId)]).length
      simp only [List.length_append]
      omega

/-- **C8.** `cloneTree` maps each distinct input node, keyed by identity, to
exactly one work node: when it succeeds, the input store is untouched, the
root input node is bound to the root work node, and every memo binding
`i ↦ w` satisfies `CloneNodeSpec`: the work node copies the scalar fields,
its references are the singleton of the input reference, `dependencies` and
`originalDependencies` are the same map, and every dependency entry points
to the memoised work node of some input node — so a revisited input node
(a cycle or a self-reference) is reused as a shared edge, never unfolded. -/
theorem cloneTree_spec (fuel : Nat) (hs : HS) (rootInp : Nat) (hs' : HS)
    (rootW : Nat) (memo' : CloneMemo)
    (h : cloneTree fuel hs rootInp = .ok (hs', rootW, memo')) :
    hs'.inp = hs.inp
    ∧ mapGet memo' rootInp = some rootW
    ∧ CloneInv hs' memo' := by
  simp only [cloneTree, allocW] at h
  cases hloop : loopGo (fun (s : HS × CloneMemo) d => cloneAddNode fuel s.1 s.2 d
      hs.work.length) (getI hs rootInp).dependencies
      ({ inp := hs.inp, work := hs.work ++ [mkWorkNode (getI hs rootInp)] },
        [(rootInp, hs.work.length)]) with
  | ok s2 =>
    rw [hloop] at h
    obtain ⟨hs2, memo2⟩ := s2
    cases h
    have hinv0 : CloneInv (allocW hs (mkWorkNode (getI hs rootInp))).1
        (mapSet ([] : CloneMemo) rootInp hs.work.length) :=
      cloneInv_allocExtend hs [] rootInp (fun i w hw => absurd hw (by simp [mapGet])) rfl
    obtain ⟨b1, _, b3, b4⟩ := cloneAddNode_loop fuel hs.work.length
      (fun h1 m1 i1 h2 m2 he hi hb =>
        cloneAddNode_inv fuel h1 m1 i1 hs.work.length h2 m2 he hi hb)
      _ _ _ hloop hinv0 ⟨rootInp, mapGet_mapSet_self_gen [] rootInp hs.work.length⟩
    exact ⟨b1, b3 rootInp hs.work.length
      (mapGet_mapSet_self_gen [] rootInp hs.work.length), b4⟩
  | thrown e => rw [hloop] at h; cases h
  | fuelOut => rw [hloop] at h; cases h

theorem cloneTree_spec_witness :
    mapGet [((0 : Nat), (0 : Nat)), (1, 1)] 0 = some 0
    ∧ CloneNodeSpec
        { inp := cexRootPeerHS.inp,
          work := [
            { name := ".", references := ["workspace:."], ident := ".@workspace:.",
              locator := ".@workspace:.", dependencies := [("P", 1)],
              originalDependencies := [("P", 1)], hoistedDependencies := [],
              relayedDependencies := [], peerNames := ["P"], reasons := [] },
            { name := "P", references := ["1"], ident := "P@1", locator := "P@1",
              dependencies := [], originalDependencies := [], hoistedDependencies := [],
              relayedDependencies := [], peerNames := [], reasons := [] }] }
        [(0, 0), (1, 1)] 1 1 := by
  have h := cloneTree_spec 40 cexRootPeerHS 0
    { inp := cexRootPeerHS.inp,
      work := [
        { name := ".", references := ["workspace:."], ident := ".@workspace:.",
          locator := ".@workspace:.", dependencies := [("P", 1)],
          originalDependencies := [("P", 1)], hoistedDependencies := [],
          relayedDependencies := [], peerNames := ["P"], reasons := [] },
        { name := "P", references := ["1"], ident := "P@1", locator := "P@1",
          dependencies := [], originalDependencies := [], hoistedDependencies := [],
          relayedDependencies := [], peerNames := [], reasons := [] }] }
    0 [(0, 0), (1, 1)] (by decide)
  exact ⟨h.2.1, (h.2.2 1 1 (by decide)).2⟩


/-- The cloner never touches the input store, whatever the memo. -/
theorem cloneAddNode_inp :
    ∀ (fuel : Nat) (hs : HS) (memo : CloneMemo) (inId parentW : Nat) (hs' : HS)
      (memo' : CloneMemo),
      cloneAddNode fuel hs memo inId parentW = .ok (hs', memo') → hs'.inp = hs.inp := by
  intro fuel
  induction fuel with
  | zero =>
    intro hs memo inId parentW hs' memo' h
    exact absurd h (by simp [cloneAddNode])
  | succ fuel' ih =>
    intro hs memo inId parentW hs' memo' h
    simp only [cloneAddNode, allocW] at h
    cases hseen : mapGet memo inId with
    | some wid =>
      rw [hseen] at h
      simp only [Option.isSome_some, if_true] at h
      cases h
      rfl
    | none =>
      rw [hseen] at h
      simp only [Option.isSome_none, Bool.false_eq_true, if_false] at h
      exact loopGo_inv (fun (a b : HS × CloneMemo) => b.1.inp = a.1.inp)
        (fun (s : HS × CloneMemo) d => cloneAddNode fuel' s.1 s.2 d hs.work.length)
        (fun _ => rfl) (fun _ _ _ hab hbc => hbc.trans hab)
        (fun a x a' hstep => ih a.1 a.2 x hs.work.length a'.1 a'.2 hstep)
        _ _ _ h

theorem cloneTree_inp (fuel : Nat) (hs : HS) (rootInp : Nat) (hs' : HS) (rootW : Nat)
    (memo' : CloneMemo) (h : cloneTree fuel hs rootInp = .ok (hs', rootW, memo')) :
    hs'.inp = hs.inp := by
  simp only [cloneTree, allocW] at h
  split at h
  · rename_i s2 heq
    cases h
    exact loopGo_inv (fun (a b : HS × CloneMemo) => b.1.inp = a.1.inp)
      (fun (s : HS × CloneMemo) d => cloneAddNode fuel s.1 s.2 d hs.work.length)
      (fun _ => rfl) (fun _ _ _ hab hbc => hbc.trans hab)
      (fun a x a' hstep => cloneAddNode_inp fuel a.1 a.2 x hs.work.length a'.1 a'.2 hstep)
      _ _ _ heq
  · cases h
  · cases h

/-- The candidate search only writes `reasons` through `setW`, never the
input store. -/
theorem computeHC_inp :
    ∀ (fuel : Nat) (ctx : SearchCtx) (st : SearchSt) (path : List Nat) (nid : Nat)
      (st' : SearchSt),
      computeHC fuel ctx st path nid = .ok st' → st'.hs.inp = st.hs.inp := by
  intro fuel
  induction fuel with
  | zero =>
    intro ctx st path nid st' h
    exact absurd h (by simp [computeHC])
  | succ fuel' ih =>
    intro ctx st path nid st' h
    obtain ⟨t, ps, st1, hps, hpar1, hseen1, hhs1, hcands1, hlast⟩ :=
      computeHC_succ_elim fuel' ctx st path nid st' h
    have h1 : st1.hs.inp = st.hs.inp := by
      rcases hhs1 with he | ⟨r, he⟩
      · rw [he]
      · rw [he]
        rfl
    rcases hlast with he | ⟨st3, hloop, he⟩
    · rw [he]
      exact h1
    · have hP := loopGo_inv (fun (a b : SearchSt) => b.hs.inp = a.hs.inp)
        (fun (s : SearchSt) depId =>
          if (! setHas (getW s.hs nid).peerNames (getW s.hs depId).name) &&
              (! setHas path depId) then computeHC fuel' ctx s (path ++ [nid]) depId
          else .ok s)
        (fun _ => rfl) (fun _ _ _ hab hbc => hbc.trans hab)
        (fun a x a' hstep => by
          dsimp only at hstep
          by_cases hc : ((! setHas (getW a.hs nid).peerNames (getW a.hs x).name) &&
              (! setHas path x)) = true
          · rw [if_pos hc] at hstep
            exact ih ctx a (path ++ [nid]) x a' hstep
          · rw [if_neg hc] at hstep
            cases hstep
            rfl)
        _ _ _ hloop
      rw [he]
      exact hP.trans h1

theorem ghcTopStep_inp (fuel : Nat) (ctx : SearchCtx) (st : SearchSt) (depId : Nat)
    (st' : SearchSt) (h : ghcTopStep fuel ctx st depId = .ok st') :
    st'.hs.inp = st.hs.inp := by
  simp only [ghcTopStep] at h
  by_cases hp : setHas (getW st.hs ctx.rootId).peerNames (getW st.hs depId).name = true
  · rw [if_pos hp] at h
    cases h
    rfl
  · rw [if_neg hp] at h
    split at h
    · rename_i st2 heq
      cases h
      have hP := loopGo_inv (fun (a b : SearchSt) => b.hs.inp = a.hs.inp)
        (fun (s : SearchSt) subId =>
          if setHas (getW s.hs depId).peerNames (getW s.hs subId).name then .ok s
          else computeHC fuel ctx s [depId] subId)
        (fun _ => rfl) (fun _ _ _ hab hbc => hbc.trans hab)
        (fun a x a' hstep => by
          dsimp only at hstep
          by_cases hc : setHas (getW a.hs depId).peerNames (getW a.hs x).name = true
          · rw [if_pos hc] at hstep
            cases hstep
            rfl
          · rw [if_neg hc] at hstep
            exact computeHC_inp fuel ctx a [depId] x a' hstep)
        _ _ _ heq
      exact hP
    · cases h
    · cases h

theorem getHoistCandidates_inp (fuel : Nat) (hs : HS) (rootId : Nat) (p : List Nat)
    (aDeps : DepMap) (amap : AncestorMap) (opts : HOptions) (hs' : HS)
    (sets : List CandSet)
    (h : getHoistCandidates fuel hs rootId p aDeps amap opts = .ok (hs', sets)) :
    hs'.inp = hs.inp := by
  simp only [getHoistCandidates] at h
  split at h
  · rename_i st1 heq
    cases h
    have hP := loopGo_inv (fun (a b : SearchSt) => b.hs.inp = a.hs.inp) _
      (fun _ => rfl) (fun _ _ _ hab hbc => hbc.trans hab)
      (fun a x a' hstep => ghcTopStep_inp fuel _ a x a' hstep)
      _ _ _ heq
    exact hP
  · cases h
  · cases h

theorem walkClonePath_inp :
    ∀ (path : List Nat) (hs : HS) (ct : CTree) (n : PName) (c : Nat),
      (walkClonePath hs ct path n c).1.inp = hs.inp := by
  intro path
  induction path with
  | nil =>
    intro hs ct n c
    rfl
  | cons nodeId rest ih =>
    intro hs ct n c
    simp only [walkClonePath]
    cases hm : mapGet ct.children nodeId with
    | some nodeClone =>
      dsimp only
      rw [ih]
      rfl
    | none =>
      dsimp only
      rw [ih]
      rfl

theorem applyAtRoot_inp (hs : HS) (rootId : Nat) (aDeps : DepMap) (candId : Nat) :
    (applyAtRoot hs rootId aDeps candId).1.inp = hs.inp := by
  simp only [applyAtRoot]
  cases hm : mapGet (getW hs rootId).dependencies (getW hs candId).name with
  | none =>
    dsimp only
    split
    · rfl
    · rfl
  | some hoistedId =>
    dsimp only
    rfl

theorem applyCandidate_inp (hs : HS) (ct : CTree) (rootId : Nat) (aDeps : DepMap)
    (c : List Nat × Nat) : (applyCandidate hs ct rootId aDeps c).1.inp = hs.inp := by
  simp only [applyCandidate]
  rw [applyAtRoot_inp]
  exact walkClonePath_inp c.1 hs ct ((getW hs c.2).name) c.2

theorem applyCandidateStep_inp (fuel treeId rootId : Nat) (opts : HOptions)
    (s : HS × CTree × DepMap) (c : List Nat × Nat) (s' : HS × CTree × DepMap)
    (h : applyCandidateStep fuel treeId rootId opts s c = .ok s') :
    s'.1.inp = s.1.inp := by
  simp only [applyCandidateStep] at h
  by_cases hc : opts.check = true
  · rw [if_pos hc] at h
    split at h
    · split at h
      · cases h
      · cases h
        exact applyCandidate_inp _ _ _ _ _
    · cases h
    · cases h
  · rw [if_neg hc] at h
    cases h
    exact applyCandidate_inp _ _ _ _ _

theorem applyCandidateSets_inp (fuel : Nat) (hs : HS) (ct : CTree) (aDeps : DepMap)
    (treeId rootId : Nat) (opts : HOptions) (sets : List CandSet)
    (s' : HS × CTree × DepMap)
    (h : applyCandidateSets fuel hs ct aDeps treeId rootId opts sets = .ok s') :
    s'.1.inp = hs.inp := by
  simp only [applyCandidateSets] at h
  exact loopGo_inv (fun (a b : HS × CTree × DepMap) => b.1.inp = a.1.inp)
    (fun (s : HS × CTree × DepMap) (cs : CandSet) =>
      loopGo (applyCandidateStep fuel treeId rootId opts) cs.candidates s)
    (fun _ => rfl) (fun _ _ _ hab hbc => hbc.trans hab)
    (fun a x a' hstep => loopGo_inv (fun (u v : HS × CTree × DepMap) => v.1.inp = u.1.inp)
      (applyCandidateStep fuel treeId rootId opts) (fun _ => rfl)
      (fun _ _ _ huv hvw => hvw.trans huv)
      (fun u y u' hu => applyCandidateStep_inp fuel treeId rootId opts u y u' hu)
      x.candidates a a' hstep)
    sets _ s' h

theorem hoistRounds_inp :
    ∀ (fuel : Nat) (hs : HS) (ct : CTree) (treeId rootId : Nat) (p : List Nat)
      (aDeps : DepMap) (amap : AncestorMap) (opts : HOptions) (hs' : HS)
      (aDeps' : DepMap),
      hoistRounds fuel hs ct treeId rootId p aDeps amap opts = .ok (hs', aDeps') →
      hs'.inp = hs.inp := by
  intro fuel
  induction fuel with
  | zero =>
    intro hs ct treeId rootId p aDeps amap opts hs' aDeps' h
    exact absurd h (by simp [hoistRounds])
  | succ fuel' ih =>
    intro hs ct treeId rootId p aDeps amap opts hs' aDeps' h
    simp only [hoistRounds] at h
    cases hg : getHoistCandidates fuel' hs rootId p aDeps amap opts with
    | ok r1 =>
      obtain ⟨hs1, sets⟩ := r1
      rw [hg] at h
      dsimp only at h
      cases ha : applyCandidateSets fuel' hs1 ct aDeps treeId rootId opts sets with
      | ok r2 =>
        obtain ⟨hs2, ct2, aDeps2⟩ := r2
        rw [ha] at h
        dsimp only at h
        have h21 : hs2.inp = hs1.inp :=
          applyCandidateSets_inp fuel' hs1 ct aDeps treeId rootId opts sets _ ha
        have h10 : hs1.inp = hs.inp :=
          getHoistCandidates_inp fuel' hs rootId p aDeps amap opts hs1 sets hg
        by_cases hl : sets.length > 0
        · rw [if_pos hl] at h
          exact (ih hs2 ct2 treeId rootId p aDeps2 amap opts hs' aDeps' h).trans
            (h21.trans h10)
        · rw [if_neg hl] at h
          cases h
          exact h21.trans h10
      | thrown e =>
        rw [ha] at h
        cases h
      | fuelOut =>
        rw [ha] at h
        cases h
    | thrown e =>
      rw [hg] at h
      cases h
    | fuelOut =>
      rw [hg] at h
      cases h

theorem hoistTo_inp :
    ∀ (fuel : Nat) (hs : HS) (treeId rootId : Nat) (p : List Nat) (paDeps : DepMap)
      (amap : AncestorMap) (opts : HOptions) (seen : List Nat) (hs' : HS)
      (seen' path' : List Nat),
      hoistTo fuel hs treeId rootId p paDeps amap opts seen = .ok (hs', seen', path') →
      hs'.inp = hs.inp := by
  intro fuel
  induction fuel with
  | zero =>
    intro hs treeId rootId p paDeps amap opts seen hs' seen' path' h
    exact absurd h (by simp [hoistTo])
  | succ fuel' ih =>
    intro hs treeId rootId p paDeps amap opts seen hs' seen' path' h
    simp only [hoistTo] at h
    by_cases hseen : setHas seen rootId = true
    · rw [if_pos hseen] at h
      cases h
      rfl
    · rw [if_neg hseen] at h
      split at h
      · rename_i hs1 aDeps1 heq
        have h1 : hs1.inp = hs.inp := hoistRounds_inp fuel' hs _ treeId rootId p _ amap
          opts hs1 aDeps1 heq
        have hP := loopGo_inv
          (fun (a b : HS × List Nat × List Nat) => b.1.inp = a.1.inp)
          (fun (s : HS × List Nat × List Nat) depId =>
            if setHas (getW s.1 rootId).peerNames (getW s.1 depId).name then
              .ok (s.1, s.2.1, setDelete (setAdd s.2.2 depId) depId)
            else
              match hoistTo fuel' s.1 treeId depId (setAdd s.2.2 depId) aDeps1 amap opts
                  s.2.1 with
              | .ok (hs2, seen2, path2) => .ok (hs2, seen2, setDelete path2 depId)
              | .thrown e => .thrown e
              | .fuelOut => .fuelOut)
          (fun _ => rfl) (fun _ _ _ hab hbc => hbc.trans hab)
          (fun a x a' hstep => by
            dsimp only at hstep
            by_cases hc : setHas (getW a.1 rootId).peerNames (getW a.1 x).name = true
            · rw [if_pos hc] at hstep
              cases hstep
              rfl
            · rw [if_neg hc] at hstep
              cases hrec : hoistTo fuel' a.1 treeId x (setAdd a.2.2 x) aDeps1 amap opts
                  a.2.1 with
              | ok r =>
                obtain ⟨h2, s2, p2⟩ := r
                rw [hrec] at hstep
                cases hstep
                exact ih a.1 treeId x (setAdd a.2.2 x) aDeps1 amap opts a.2.1 h2 s2 p2 hrec
              | thrown e =>
                rw [hrec] at hstep
                cases hstep
              | fuelOut =>
                rw [hrec] at hstep
                cases hstep)
          _ _ _ h
        exact hP.trans h1
      · cases h
      · cases h

/-- **C5.** `hoist` never mutates its input: whatever the outcome, every
input node of the returned heap — in particular every node reachable from
the input root — has the same name, reference, dependency list and peer
names as before the call; all mutation goes to the separately allocated
work store. -/
theorem hoist_never_mutates_input (fuel : Nat) (hs : HS) (rootInp : Nat)
    (opts : HoistOpts) (env : Option Int) :
    ((hoist fuel hs rootInp opts env).2).inp = hs.inp := by
  simp only [hoist]
  cases hc : cloneTree fuel hs rootInp with
  | thrown e => rfl
  | fuelOut => rfl
  | ok r =>
    obtain ⟨hs1, treeW, memo⟩ := r
    have h1 : hs1.inp = hs.inp := cloneTree_inp fuel hs rootInp hs1 treeW memo hc
    dsimp only
    cases hb : buildAncestorMap fuel hs1 treeW with
    | thrown e => exact h1
    | fuelOut => exact h1
    | ok amap =>
      dsimp only
      cases ht : hoistTo fuel hs1 treeW treeW [treeW] [] amap
          { check := opts.check.getD false ||
              decide (effectiveDebugLevel opts.debugLevel env ≥ 9),
            debugLevel := effectiveDebugLevel opts.debugLevel env } [] with
      | thrown e => exact h1
      | fuelOut => exact h1
      | ok r =>
        obtain ⟨hs2, sn, pt⟩ := r
        dsimp only
        have h21 : hs2.inp = hs.inp :=
          (hoistTo_inp fuel hs1 treeW treeW [treeW] [] amap _ [] hs2 sn pt ht).trans h1
        split
        · split
          · exact h21
          · exact h21
          · split
            · exact h21
            · split
              · exact h21
              · exact h21
              · exact h21
        · split
          · exact h21
          · exact h21
          · exact h21


/-- `loopGo_inv` with membership of the iterated element available to the
step obligation. -/
theorem loopGo_inv_mem {σ α : Type} (P : σ → σ → Prop) (step : σ → α → HRes σ)
    (hrefl : ∀ s, P s s) (htrans : ∀ a b c, P a b → P b c → P a c) :
    ∀ (xs : List α), (∀ s x s', x ∈ xs → step s x = .ok s' → P s s') →
      ∀ (s s' : σ), loopGo step xs s = .ok s' → P s s' := by
  intro xs
  induction xs with
  | nil =>
    intro _ s s' h
    simp only [loopGo] at h
    cases h
    exact hrefl _
  | cons x rest ih =>
    intro hstep s s' h
    simp only [loopGo] at h
    cases hx : step s x with
    | ok s1 =>
      rw [hx] at h
      exact htrans _ _ _ (hstep s x s1 (List.mem_cons_self x rest) hx)
        (ih (fun u y u' hy hu => hstep u y u' (List.mem_cons_of_mem x hy) hu) s1 s' h)
    | thrown e => rw [hx] at h; cases h
    | fuelOut => rw [hx] at h; cases h

/-- Updating an output node in place without changing its name or references
preserves provenance of the whole store. -/
theorem rproj_setR (hs : HS) (rootW : Nat) (st : ShrinkSt) (i : Nat) (n : RNode)
    (hn : n.name = (getR st i).name ∧ n.references = (getR st i).references)
    (hall : ∀ rn ∈ st.out, RProjOf hs rootW rn) :
    ∀ rn ∈ (setR st i n).out, RProjOf hs rootW rn := by
  intro rn hm
  by_cases hi : i < st.out.length
  · rcases List.mem_or_eq_of_mem_set hm with h1 | h1
    · exact hall rn h1
    · subst h1
      have hmem : getR st i ∈ st.out := by
        simp only [getR]
        rw [List.getD_eq_getElem st.out dummyRNode hi]
        exact List.getElem_mem hi
      rcases hall _ hmem with ⟨ha, hb⟩ | ⟨w, hw, ha, hb⟩
      · exact Or.inl ⟨hn.1.trans ha, hn.2.trans hb⟩
      · exact Or.inr ⟨w, hw, hn.1.trans ha, hn.2.trans hb⟩
  · have hset : st.out.set i n = st.out := List.set_eq_of_length_le (Nat.le_of_not_lt hi)
    have hm2 : rn ∈ st.out.set i n := hm
    rw [hset] at hm2
    exact hall rn hm2

/-- Every node `shrinkAddNode` adds to the output store is a projection of
a shrink source, provided the node being added is one. -/
theorem shrinkAddNode_prov :
    ∀ (fuel : Nat) (hs : HS) (rootW : Nat) (st : ShrinkSt) (wid parentRid : Nat)
      (st' : ShrinkSt),
      shrinkAddNode fuel hs st wid parentRid = .ok st' →
      ShrinkSrc hs rootW wid →
      (∀ rn ∈ st.out, RProjOf hs rootW rn) →
      ∀ rn ∈ st'.out, RProjOf hs rootW rn := by
  intro fuel
  induction fuel with
  | zero =>
    intro hs rootW st wid parentRid st' h _ _
    exact absurd h (by simp [shrinkAddNode])
  | succ fuel' ih =>
    intro hs rootW st wid parentRid st' h hsrc hall
    simp only [shrinkAddNode, allocR] at h
    cases hseen : mapGet st.nodes wid with
    | some rid =>
      rw [hseen] at h
      simp only [Option.isSome_some, if_true] at h
      cases h
      exact rproj_setR hs rootW st parentRid _ ⟨rfl, rfl⟩ hall
    | none =>
      rw [hseen] at h
      simp only [Option.isSome_none, Bool.false_eq_true, if_false] at h
      have hP := loopGo_inv_mem
        (fun (a b : ShrinkSt) =>
          (∀ rn ∈ a.out, RProjOf hs rootW rn) → ∀ rn ∈ b.out, RProjOf hs rootW rn)
        (fun (s : ShrinkSt) depId =>
          if setHas (getW hs wid).peerNames (getW hs depId).name then .ok s
          else shrinkAddNode fuel' hs s depId st.out.length)
        (fun _ hh => hh) (fun _ _ _ hab hbc hh => hbc (hab hh))
        (mapValues (getW hs wid).dependencies)
        (fun a x a' hx hstep => by
          dsimp only at hstep
          by_cases hc : setHas (getW hs wid).peerNames (getW hs x).name = true
          · rw [if_pos hc] at hstep
            cases hstep
            exact fun hh => hh
          · rw [if_neg hc] at hstep
            exact fun hh => ih hs rootW a x st.out.length a' hstep
              (ShrinkSrc.child wid x hsrc hx (Bool.not_eq_true _ ▸ hc)) hh)
        _ _ h
      refine hP ?_
      refine rproj_setR hs rootW _ parentRid _ ⟨rfl, rfl⟩ ?_
      intro rn hm
      have hm2 : rn ∈ st.out ++ [RNode.mk (getW hs wid).name (getW hs wid).references []] :=
        hm
      rcases List.mem_append.mp hm2 with h1 | h1
      · exact hall rn h1
      · rw [List.mem_singleton] at h1
        subst h1
        exact Or.inr ⟨wid, hsrc, rfl, rfl⟩

/-- **C10 (amended).** The shrinker's inner loop omits every dependency
whose name is in the parent work node's peer names, but the top-level loop
over the root's dependencies applies no such filter: every output node is
a projection of the root, of a direct dependency of the root (peer-named or
not), or of a node reached from one of those through non-peer edges only. -/
theorem shrinkTree_nonpeer_provenance (fuel : Nat) (hs : HS) (rootW : Nat)
    (out : List RNode) (r : Nat) (h : shrinkTree fuel hs rootW = .ok (out, r)) :
    ∀ rn ∈ out, RProjOf hs rootW rn := by
  simp only [shrinkTree] at h
  split at h
  · rename_i st1 heq
    cases h
    have hP := loopGo_inv_mem
      (fun (a b : ShrinkSt) =>
        (∀ rn ∈ a.out, RProjOf hs rootW rn) → ∀ rn ∈ b.out, RProjOf hs rootW rn)
      (fun (s : ShrinkSt) depId => shrinkAddNode fuel hs s depId 0)
      (fun _ hh => hh) (fun _ _ _ hab hbc hh => hbc (hab hh))
      (mapValues (getW hs rootW).dependencies)
      (fun a x a' hx hstep => fun hh =>
        shrinkAddNode_prov fuel hs rootW a x 0 a' hstep (ShrinkSrc.rootChild x hx) hh)
      _ _ heq
    refine hP ?_
    intro rn hm
    have hm2 : rn ∈ [RNode.mk (getW hs rootW).name (setOfList (getW hs rootW).references) []] :=
      hm
    rw [List.mem_singleton] at hm2
    subst hm2
    exact Or.inl ⟨rfl, rfl⟩
  · cases h
  · cases h

theorem shrinkTree_nonpeer_provenance_witness :
    RProjOf cexSelfCheckHS 0 (RNode.mk "A" ["1"] []) := by
  exact shrinkTree_nonpeer_provenance 40 cexSelfCheckHS 0
    [RNode.mk "." ["workspace:."] [1, 2], RNode.mk "A" ["1"] [], RNode.mk "P" ["1"] []]
    0 (by decide) (RNode.mk "A" ["1"] []) (by decide)


/-- Pointwise agreement of loop bodies on non-fuel-out results lifts to the
whole loop. -/
theorem loopGo_congr {σ α : Type} (s1 s2 : σ → α → HRes σ)
    (hag : ∀ s x r, r ≠ HRes.fuelOut → s1 s x = r → s2 s x = r) :
    ∀ (xs : List α) (s : σ) (r : HRes σ), r ≠ .fuelOut →
      loopGo s1 xs s = r → loopGo s2 xs s = r := by
  intro xs
  induction xs with
  | nil =>
    intro s r hr h
    exact h
  | cons x rest ih =>
    intro s r hr h
    simp only [loopGo] at h ⊢
    cases hx : s1 s x with
    | ok s1' =>
      rw [hx] at h
      rw [hag s x (.ok s1') (by intro hh; cases hh) hx]
      exact ih s1' r hr h
    | thrown e =>
      rw [hx] at h
      rw [hag s x (.thrown e) (by intro hh; cases hh) hx]
      exact h
    | fuelOut =>
      rw [hx] at h
      exact absurd h.symm hr

/-- From single-step fuel monotonicity to arbitrary fuel increase. -/
theorem hres_mono_le {β : Type} (F : Nat → HRes β)
    (hmono : ∀ f r, r ≠ HRes.fuelOut → F f = r → F (f + 1) = r) :
    ∀ (f f' : Nat), f ≤ f' → ∀ r, r ≠ HRes.fuelOut → F f = r → F f' = r := by
  intro f f' hle
  induction hle with
  | refl => exact fun r hr h => h
  | step _ ih => exact fun r hr h => hmono _ r hr (ih r hr h)

theorem cloneAddNode_mono :
    ∀ (f : Nat) (hs : HS) (memo : CloneMemo) (inId parentW : Nat)
      (r : HRes (HS × CloneMemo)),
      r ≠ .fuelOut → cloneAddNode f hs memo inId parentW = r →
      cloneAddNode (f + 1) hs memo inId parentW = r := by
  intro f
  induction f with
  | zero =>
    intro hs memo inId parentW r hr h
    exact absurd h.symm hr
  | succ f ih =>
    intro hs memo inId parentW r hr h
    simp only [cloneAddNode, allocW] at h ⊢
    cases hseen : mapGet memo inId with
    | some wid =>
      rw [hseen] at h
      simp only [Option.isSome_some, if_true] at h ⊢
      exact h
    | none =>
      rw [hseen] at h
      simp only [Option.isSome_none, Bool.false_eq_true, if_false] at h ⊢
      exact loopGo_congr
        (fun (s : HS × CloneMemo) d => cloneAddNode f s.1 s.2 d hs.work.length)
        (fun (s : HS × CloneMemo) d => cloneAddNode (f + 1) s.1 s.2 d hs.work.length)
        (fun s x r' hr' h' => ih s.1 s.2 x hs.work.length r' hr' h')
        _ _ r hr h

theorem cloneTree_mono (f : Nat) (hs : HS) (rootInp : Nat)
    (r : HRes (HS × Nat × CloneMemo)) (hr : r ≠ .fuelOut)
    (h : cloneTree f hs rootInp = r) : cloneTree (f + 1) hs rootInp = r := by
  simp only [cloneTree, allocW] at h ⊢
  cases hloop : loopGo
      (fun (s : HS × CloneMemo) d => cloneAddNode f s.1 s.2 d hs.work.length)
      (getI hs rootInp).dependencies
      ({ inp := hs.inp, work := hs.work ++ [mkWorkNode (getI hs rootInp)] },
        [(rootInp, hs.work.length)]) with
  | ok s2 =>
    rw [hloop] at h
    rw [loopGo_congr
      (fun (s : HS × CloneMemo) d => cloneAddNode f s.1 s.2 d hs.work.length)
      (fun (s : HS × CloneMemo) d => cloneAddNode (f + 1) s.1 s.2 d hs.work.length)
      (fun s x r' hr' h' => cloneAddNode_mono f s.1 s.2 x hs.work.length r' hr' h')
      _ _ _ (by intro hh; cases hh) hloop]
    exact h
  | thrown e =>
    rw [hloop] at h
    rw [loopGo_congr
      (fun (s : HS × CloneMemo) d => cloneAddNode f s.1 s.2 d hs.work.length)
      (fun (s : HS × CloneMemo) d => cloneAddNode (f + 1) s.1 s.2 d hs.work.length)
      (fun s x r' hr' h' => cloneAddNode_mono f s.1 s.2 x hs.work.length r' hr' h')
      _ _ _ (by intro hh; cases hh) hloop]
    exact h
  | fuelOut =>
    rw [hloop] at h
    exact absurd h.symm hr

theorem amapAddParent_mono :
    ∀ (f : Nat) (hs : HS) (amap : AncestorMap) (seen : List Nat) (parentId nodeId : Nat)
      (r : HRes (AncestorMap × List Nat)),
      r ≠ .fuelOut → amapAddParent f hs amap seen parentId nodeId = r →
      amapAddParent (f + 1) hs amap seen parentId nodeId = r := by
  intro f
  induction f with
  | zero =>
    intro hs amap seen parentId nodeId r hr h
    exact absurd h.symm hr
  | succ f ih =>
    intro hs amap seen parentId nodeId r hr h
    simp only [amapAddParent] at h ⊢
    by_cases hseen : setHas seen nodeId = true
    · rw [if_pos hseen] at h ⊢
      exact h
    · rw [if_neg hseen] at h ⊢
      exact loopGo_congr
        (fun (s : AncestorMap × List Nat) depId =>
          if setHas (getW hs nodeId).peerNames (getW hs depId).name then .ok s
          else amapAddParent f hs s.1 s.2 nodeId depId)
        (fun (s : AncestorMap × List Nat) depId =>
          if setHas (getW hs nodeId).peerNames (getW hs depId).name then .ok s
          else amapAddParent (f + 1) hs s.1 s.2 nodeId depId)
        (fun s x r' hr' h' => by
          dsimp only at h' ⊢
          by_cases hc : setHas (getW hs nodeId).peerNames (getW hs x).name = true
          · rw [if_pos hc] at h' ⊢
            exact h'
          · rw [if_neg hc] at h' ⊢
            exact ih hs s.1 s.2 nodeId x r' hr' h')
        _ _ r hr h

theorem buildAncestorMap_mono (f : Nat) (hs : HS) (rootW : Nat) (r : HRes AncestorMap)
    (hr : r ≠ .fuelOut) (h : buildAncestorMap f hs rootW = r) :
    buildAncestorMap (f + 1) hs rootW = r := by
  simp only [buildAncestorMap] at h ⊢
  cases hloop : loopGo
      (fun (s : AncestorMap × List Nat) depId =>
        if setHas (getW hs rootW).peerNames (getW hs depId).name then .ok s
        else amapAddParent f hs s.1 s.2 rootW depId)
      (mapValues (getW hs rootW).dependencies) ([], [rootW]) with
  | ok s2 =>
    rw [hloop] at h
    rw [loopGo_congr
      (fun (s : AncestorMap × List Nat) depId =>
        if setHas (getW hs rootW).peerNames (getW hs depId).name then .ok s
        else amapAddParent f hs s.1 s.2 rootW depId)
      (fun (s : AncestorMap × List Nat) depId =>
        if setHas (getW hs rootW).peerNames (getW hs depId).name then .ok s
        else amapAddParent (f + 1) hs s.1 s.2 rootW depId)
      (fun s x r' hr' h' => by
        dsimp only at h' ⊢
        by_cases hc : setHas (getW hs rootW).peerNames (getW hs x).name = true
        · rw [if_pos hc] at h' ⊢
          exact h'
        · rw [if_neg hc] at h' ⊢
          exact amapAddParent_mono f hs s.1 s.2 rootW x r' hr' h')
      _ _ _ (by intro hh; cases hh) hloop]
    exact h
  | thrown e =>
    rw [hloop] at h
    rw [loopGo_congr
      (fun (s : AncestorMap × List Nat) depId =>
        if setHas (getW hs rootW).peerNames (getW hs depId).name then .ok s
        else amapAddParent f hs s.1 s.2 rootW depId)
      (fun (s : AncestorMap × List Nat) depId =>
        if setHas (getW hs rootW).peerNames (getW hs depId).name then .ok s
        else amapAddParent (f + 1) hs s.1 s.2 rootW depId)
      (fun s x r' hr' h' => by
        dsimp only at h' ⊢
        by_cases hc : setHas (getW hs rootW).peerNames (getW hs x).name = true
        · rw [if_pos hc] at h' ⊢
          exact h'
        · rw [if_neg hc] at h' ⊢
          exact amapAddParent_mono f hs s.1 s.2 rootW x r' hr' h')
      _ _ _ (by intro hh; cases hh) hloop]
    exact h
  | fuelOut =>
    rw [hloop] at h
    exact absurd h.symm hr

theorem computeHC_mono :
    ∀ (f : Nat) (ctx : SearchCtx) (st : SearchSt) (path : List Nat) (nid : Nat)
      (r : HRes SearchSt),
      r ≠ .fuelOut → computeHC f ctx st path nid = r →
      computeHC (f + 1) ctx st path nid = r := by
  intro f
  induction f with
  | zero =>
    intro ctx st path nid r hr h
    exact absurd h.symm hr
  | succ f ih =>
    intro ctx st path nid r hr h
    simp only [computeHC] at h ⊢
    cases hamap : mapGet ctx.amap (getW st.hs nid).ident with
    | none =>
      rw [hamap] at h
      exact h
    | some anc =>
      rw [hamap] at h
      cases hps : st.parents with
      | nil =>
        rw [hps] at h
        exact h
      | cons t ps =>
        rw [hps] at h
        dsimp only at h ⊢
        by_cases hseen : setHas st.seen (getW st.hs nid).locator = true
        · rw [if_pos hseen] at h ⊢
          exact h
        · rw [if_neg hseen] at h ⊢
          have hag : ∀ (s : SearchSt) (x : Nat) (r' : HRes SearchSt),
              r' ≠ HRes.fuelOut →
              (if (! setHas (getW s.hs nid).peerNames (getW s.hs x).name) &&
                  (! setHas path x) then computeHC f ctx s (path ++ [nid]) x
                else .ok s) = r' →
              (if (! setHas (getW s.hs nid).peerNames (getW s.hs x).name) &&
                  (! setHas path x) then computeHC (f + 1) ctx s (path ++ [nid]) x
                else .ok s) = r' := by
            intro s x r' hr' h'
            by_cases hc : ((! setHas (getW s.hs nid).peerNames (getW s.hs x).name) &&
                (! setHas path x)) = true
            · rw [if_pos hc] at h' ⊢
              exact ih ctx s (path ++ [nid]) x r' hr' h'
            · rw [if_neg hc] at h' ⊢
              exact h'
          split at h
          · rename_i st3 hF
            have h2 := loopGo_congr _ _ hag _ _ _ (by intro hh; cases hh) hF
            split
            · rename_i st3' hG
              have h3 : (HRes.ok st3' : HRes SearchSt) = .ok st3 := hG.symm.trans h2
              cases h3
              exact h
            · rename_i e hG
              have h3 : (HRes.thrown e : HRes SearchSt) = .ok st3 := hG.symm.trans h2
              cases h3
            · rename_i hG
              have h3 : (HRes.fuelOut : HRes SearchSt) = .ok st3 := hG.symm.trans h2
              cases h3
          · rename_i e hF
            have h2 := loopGo_congr _ _ hag _ _ _ (by intro hh; cases hh) hF
            split
            · rename_i st3' hG
              have h3 : (HRes.ok st3' : HRes SearchSt) = .thrown e := hG.symm.trans h2
              cases h3
            · rename_i e' hG
              have h3 : (HRes.thrown e' : HRes SearchSt) = .thrown e := hG.symm.trans h2
              cases h3
              exact h
            · rename_i hG
              have h3 : (HRes.fuelOut : HRes SearchSt) = .thrown e := hG.symm.trans h2
              cases h3
          · exact absurd h.symm hr

theorem ghcTopStep_mono (f : Nat) (ctx : SearchCtx) (st : SearchSt) (depId : Nat)
    (r : HRes SearchSt) (hr : r ≠ .fuelOut) (h : ghcTopStep f ctx st depId = r) :
    ghcTopStep (f + 1) ctx st depId = r := by
  simp only [ghcTopStep] at h ⊢
  by_cases hp : setHas (getW st.hs ctx.rootId).peerNames (getW st.hs depId).name = true
  · rw [if_pos hp] at h ⊢
    exact h
  · rw [if_neg hp] at h ⊢
    have hag : ∀ (s : SearchSt) (x : Nat) (r' : HRes SearchSt),
        r' ≠ HRes.fuelOut →
        (if setHas (getW s.hs depId).peerNames (getW s.hs x).name then .ok s
          else computeHC f ctx s [depId] x) = r' →
        (if setHas (getW s.hs depId).peerNames (getW s.hs x).name then .ok s
          else computeHC (f + 1) ctx s [depId] x) = r' := by
      intro s x r' hr' h'
      by_cases hc : setHas (getW s.hs depId).peerNames (getW s.hs x).name = true
      · rw [if_pos hc] at h' ⊢
        exact h'
      · rw [if_neg hc] at h' ⊢
        exact computeHC_mono f ctx s [depId] x r' hr' h'
    split at h
    · rename_i st2 hF
      have h2 := loopGo_congr _ _ hag _ _ _ (by intro hh; cases hh) hF
      split
      · rename_i st2' hG
        have h3 : (HRes.ok st2' : HRes SearchSt) = .ok st2 := hG.symm.trans h2
        cases h3
        exact h
      · rename_i e hG
        have h3 : (HRes.thrown e : HRes SearchSt) = .ok st2 := hG.symm.trans h2
        cases h3
      · rename_i hG
        have h3 : (HRes.fuelOut : HRes SearchSt) = .ok st2 := hG.symm.trans h2
        cases h3
    · rename_i e hF
      have h2 := loopGo_congr _ _ hag _ _ _ (by intro hh; cases hh) hF
      split
      · rename_i st2' hG
        have h3 : (HRes.ok st2' : HRes SearchSt) = .thrown e := hG.symm.trans h2
        cases h3
      · rename_i e' hG
        have h3 : (HRes.thrown e' : HRes SearchSt) = .thrown e := hG.symm.trans h2
        cases h3
        exact h
      · rename_i hG
        have h3 : (HRes.fuelOut : HRes SearchSt) = .thrown e := hG.symm.trans h2
        cases h3
    · exact absurd h.symm hr

theorem getHoistCandidates_mono (f : Nat) (hs : HS) (rootId : Nat) (p : List Nat)
    (aDeps : DepMap) (amap : AncestorMap) (opts : HOptions)
    (r : HRes (HS × List CandSet)) (hr : r ≠ .fuelOut)
    (h : getHoistCandidates f hs rootId p aDeps amap opts = r) :
    getHoistCandidates (f + 1) hs rootId p aDeps amap opts = r := by
  simp only [getHoistCandidates] at h ⊢
  cases hloop : loopGo (ghcTopStep f
      { rootId := rootId, rootNodePath := p, ancestorDeps := aDeps, amap := amap,
        opts := opts })
      (mapValues (getW hs rootId).dependencies)
      { hs := hs, cands := [], parents := [], seen := [(getW hs rootId).locator] } with
  | ok st1 =>
    rw [hloop] at h
    rw [loopGo_congr
      (ghcTopStep f
        { rootId := rootId, rootNodePath := p, ancestorDeps := aDeps, amap := amap,
          opts := opts })
      (ghcTopStep (f + 1)
        { rootId := rootId, rootNodePath := p, ancestorDeps := aDeps, amap := amap,
          opts := opts })
      (fun s x r' hr' h' => ghcTopStep_mono f _ s x r' hr' h')
      _ _ _ (by intro hh; cases hh) hloop]
    exact h
  | thrown e =>
    rw [hloop] at h
    rw [loopGo_congr
      (ghcTopStep f
        { rootId := rootId, rootNodePath := p, ancestorDeps := aDeps, amap := amap,
          opts := opts })
      (ghcTopStep (f + 1)
        { rootId := rootId, rootNodePath := p, ancestorDeps := aDeps, amap := amap,
          opts := opts })
      (fun s x r' hr' h' => ghcTopStep_mono f _ s x r' hr' h')
      _ _ _ (by intro hh; cases hh) hloop]
    exact h
  | fuelOut =>
    rw [hloop] at h
    exact absurd h.symm hr

/-- With check mode off, a candidate-application step never consults its
fuel: it is plain `applyCandidate`. -/
theorem applyCandidateStep_nocheck (f treeId rootId : Nat) (opts : HOptions)
    (hchk : opts.check = false) (s : HS × CTree × DepMap) (c : List Nat × Nat) :
    applyCandidateStep f treeId rootId opts s c =
      .ok (applyCandidate s.1 s.2.1 rootId s.2.2 c) := by
  simp only [applyCandidateStep, hchk, Bool.false_eq_true, if_false]

theorem applyCandidateSets_mono (f : Nat) (hs : HS) (ct : CTree) (aDeps : DepMap)
    (treeId rootId : Nat) (opts : HOptions) (hchk : opts.check = false)
    (sets : List CandSet) (r : HRes (HS × CTree × DepMap)) (hr : r ≠ .fuelOut)
    (h : applyCandidateSets f hs ct aDeps treeId rootId opts sets = r) :
    applyCandidateSets (f + 1) hs ct aDeps treeId rootId opts sets = r := by
  simp only [applyCandidateSets] at h ⊢
  exact loopGo_congr
    (fun (s : HS × CTree × DepMap) (cs : CandSet) =>
      loopGo (applyCandidateStep f treeId rootId opts) cs.candidates s)
    (fun (s : HS × CTree × DepMap) (cs : CandSet) =>
      loopGo (applyCandidateStep (f + 1) treeId rootId opts) cs.candidates s)
    (fun s x r' hr' h' => by
      dsimp only at h' ⊢
      exact loopGo_congr
        (applyCandidateStep f treeId rootId opts)
        (applyCandidateStep (f + 1) treeId rootId opts)
        (fun u y r'' hr'' h'' => by
          rw [applyCandidateStep_nocheck f treeId rootId opts hchk u y] at h''
          rw [applyCandidateStep_nocheck (f + 1) treeId rootId opts hchk u y]
          exact h'')
        x.candidates s r' hr' h')
    sets _ r hr h

theorem hoistRounds_mono :
    ∀ (f : Nat) (hs : HS) (ct : CTree) (treeId rootId : Nat) (p : List Nat)
      (aDeps : DepMap) (amap : AncestorMap) (opts : HOptions),
      opts.check = false →
      ∀ (r : HRes (HS × DepMap)), r ≠ .fuelOut →
      hoistRounds f hs ct treeId rootId p aDeps amap opts = r →
      hoistRounds (f + 1) hs ct treeId rootId p aDeps amap opts = r := by
  intro f
  induction f with
  | zero =>
    intro hs ct treeId rootId p aDeps amap opts hchk r hr h
    exact absurd h.symm hr
  | succ f ih =>
    intro hs ct treeId rootId p aDeps amap opts hchk r hr h
    simp only [hoistRounds] at h ⊢
    cases hg : getHoistCandidates f hs rootId p aDeps amap opts with
    | ok r1 =>
      obtain ⟨hs1, sets⟩ := r1
      rw [hg] at h
      rw [getHoistCandidates_mono f hs rootId p aDeps amap opts _
        (by intro hh; cases hh) hg]
      dsimp only at h ⊢
      cases ha : applyCandidateSets f hs1 ct aDeps treeId rootId opts sets with
      | ok r2 =>
        obtain ⟨hs2, ct2, aDeps2⟩ := r2
        rw [ha] at h
        rw [applyCandidateSets_mono f hs1 ct aDeps treeId rootId opts hchk sets _
          (by intro hh; cases hh) ha]
        dsimp only at h ⊢
        by_cases hl : sets.length > 0
        · rw [if_pos hl] at h ⊢
          exact ih hs2 ct2 treeId rootId p aDeps2 amap opts hchk r hr h
        · rw [if_neg hl] at h ⊢
          exact h
      | thrown e =>
        rw [ha] at h
        rw [applyCandidateSets_mono f hs1 ct aDeps treeId rootId opts hchk sets _
          (by intro hh; cases hh) ha]
        exact h
      | fuelOut =>
        rw [ha] at h
        exact absurd h.symm hr
    | thrown e =>
      rw [hg] at h
      rw [getHoistCandidates_mono f hs rootId p aDeps amap opts _
        (by intro hh; cases hh) hg]
      exact h
    | fuelOut =>
      rw [hg] at h
      exact absurd h.symm hr

theorem hoistTo_mono :
    ∀ (f : Nat) (hs : HS) (treeId rootId : Nat) (p : List Nat) (paDeps : DepMap)
      (amap : AncestorMap) (opts : HOptions) (seen : List Nat),
      opts.check = false →
      ∀ (r : HRes (HS × List Nat × List Nat)), r ≠ .fuelOut →
      hoistTo f hs treeId rootId p paDeps amap opts seen = r →
      hoistTo (f + 1) hs treeId rootId p paDeps amap opts seen = r := by
  intro f
  induction f with
  | zero =>
    intro hs treeId rootId p paDeps amap opts seen hchk r hr h
    exact absurd h.symm hr
  | succ f ih =>
    intro hs treeId rootId p paDeps amap opts seen hchk r hr h
    simp only [hoistTo] at h ⊢
    by_cases hseen : setHas seen rootId = true
    · rw [if_pos hseen] at h ⊢
      exact h
    · rw [if_neg hseen] at h ⊢
      cases hrd : hoistRounds f hs (CTree.mk rootId []) treeId rootId p
          (overlayNonPeerDeps hs (getW hs rootId).peerNames (getW hs rootId).dependencies
            paDeps) amap opts with
      | ok r1 =>
        obtain ⟨hs1, aDeps1⟩ := r1
        rw [hrd] at h
        rw [hoistRounds_mono f hs (CTree.mk rootId []) treeId rootId p _ amap opts hchk _
          (by intro hh; cases hh) hrd]
        dsimp only at h ⊢
        exact loopGo_congr
          (fun (s : HS × List Nat × List Nat) depId =>
            if setHas (getW s.1 rootId).peerNames (getW s.1 depId).name then
              .ok (s.1, s.2.1, setDelete (setAdd s.2.2 depId) depId)
            else
              match hoistTo f s.1 treeId depId (setAdd s.2.2 depId) aDeps1 amap opts
                  s.2.1 with
              | .ok (hs2, seen2, path2) => .ok (hs2, seen2, setDelete path2 depId)
              | .thrown e => .thrown e
              | .fuelOut => .fuelOut)
          (fun (s : HS × List Nat × List Nat) depId =>
            if setHas (getW s.1 rootId).peerNames (getW s.1 depId).name then
              .ok (s.1, s.2.1, setDelete (setAdd s.2.2 depId) depId)
            else
              match hoistTo (f + 1) s.1 treeId depId (setAdd s.2.2 depId) aDeps1 amap opts
                  s.2.1 with
              | .ok (hs2, seen2, path2) => .ok (hs2, seen2, setDelete path2 depId)
              | .thrown e => .thrown e
              | .fuelOut => .fuelOut)
          (fun s x r' hr' h' => by
            dsimp only at h' ⊢
            by_cases hc : setHas (getW s.1 rootId).peerNames (getW s.1 x).name = true
            · rw [if_pos hc] at h' ⊢
              exact h'
            · rw [if_neg hc] at h' ⊢
              cases hrec : hoistTo f s.1 treeId x (setAdd s.2.2 x) aDeps1 amap opts
                  s.2.1 with
              | ok rr =>
                obtain ⟨a2, b2, c2⟩ := rr
                rw [hrec] at h'
                rw [ih s.1 treeId x (setAdd s.2.2 x) aDeps1 amap opts s.2.1 hchk _
                  (by intro hh; cases hh) hrec]
                exact h'
              | thrown e =>
                rw [hrec] at h'
                rw [ih s.1 treeId x (setAdd s.2.2 x) aDeps1 amap opts s.2.1 hchk _
                  (by intro hh; cases hh) hrec]
                exact h'
              | fuelOut =>
                rw [hrec] at h'
                exact absurd h'.symm hr')
          _ _ r hr h
      | thrown e =>
        rw [hrd] at h
        rw [hoistRounds_mono f hs (CTree.mk rootId []) treeId rootId p _ amap opts hchk _
          (by intro hh; cases hh) hrd]
        exact h
      | fuelOut =>
        rw [hrd] at h
        exact absurd h.symm hr

theorem shrinkAddNode_mono :
    ∀ (f : Nat) (hs : HS) (st : ShrinkSt) (wid parentRid : Nat) (r : HRes ShrinkSt),
      r ≠ .fuelOut → shrinkAddNode f hs st wid parentRid = r →
      shrinkAddNode (f + 1) hs st wid parentRid = r := by
  intro f
  induction f with
  | zero =>
    intro hs st wid parentRid r hr h
    exact absurd h.symm hr
  | succ f ih =>
    intro hs st wid parentRid r hr h
    simp only [shrinkAddNode, allocR] at h ⊢
    cases hseen : mapGet st.nodes wid with
    | some rid =>
      rw [hseen] at h
      simp only [Option.isSome_some, if_true] at h ⊢
      exact h
    | none =>
      rw [hseen] at h
      simp only [Option.isSome_none, Bool.false_eq_true, if_false] at h ⊢
      exact loopGo_congr
        (fun (s : ShrinkSt) d =>
          if setHas (getW hs wid).peerNames (getW hs d).name then .ok s
          else shrinkAddNode f hs s d st.out.length)
        (fun (s : ShrinkSt) d =>
          if setHas (getW hs wid).peerNames (getW hs d).name then .ok s
          else shrinkAddNode (f + 1) hs s d st.out.length)
        (fun s x r' hr' h' => by
          dsimp only at h' ⊢
          by_cases hc : setHas (getW hs wid).peerNames (getW hs x).name = true
          · rw [if_pos hc] at h' ⊢
            exact h'
          · rw [if_neg hc] at h' ⊢
            exact ih hs s x st.out.length r' hr' h')
        _ _ r hr h

/-- On a heap whose nodes `2` and `3` form a non-peer dependency cycle, the
shrinker's `addNode` runs out of fuel on either of them from any state whose
memo knows neither — and since the source never extends the memo beyond the
root, no fuel suffices: shrinking the cycle diverges. -/
theorem shrinkAddNode_cycle_diverges (hs : HS)
    (h2d : mapValues (getW hs 2).dependencies = [3, 5])
    (h2p : (getW hs 2).peerNames = [])
    (h3d : mapValues (getW hs 3).dependencies = [2, 4])
    (h3p : (getW hs 3).peerNames = []) :
    ∀ (f : Nat) (st : ShrinkSt), mapGet st.nodes 2 = none → mapGet st.nodes 3 = none →
      (∀ p, shrinkAddNode f hs st 2 p = .fuelOut) ∧
      (∀ p, shrinkAddNode f hs st 3 p = .fuelOut) := by
  intro f
  induction f with
  | zero =>
    intro st _ _
    exact ⟨fun _ => rfl, fun _ => rfl⟩
  | succ f ih =>
    intro st hn2 hn3
    constructor
    · intro p
      simp only [shrinkAddNode, allocR]
      rw [hn2]
      simp only [Option.isSome_none, Bool.false_eq_true, if_false]
      rw [h2d]
      simp only [loopGo]
      have hf3 : setHas (getW hs 2).peerNames (getW hs 3).name = false := by
        rw [h2p]
        rfl
      rw [hf3]
      simp only [Bool.false_eq_true, if_false]
      have hsub : ∀ (s : ShrinkSt), s.nodes = st.nodes → ∀ p',
          shrinkAddNode f hs s 3 p' = .fuelOut :=
        fun s hsn p' =>
          (ih s (by rw [hsn]; exact hn2) (by rw [hsn]; exact hn3)).2 p'
      rw [hsub]
      rfl
    · intro p
      simp only [shrinkAddNode, allocR]
      rw [hn3]
      simp only [Option.isSome_none, Bool.false_eq_true, if_false]
      rw [h3d]
      simp only [loopGo]
      have hf2 : setHas (getW hs 3).peerNames (getW hs 2).name = false := by
        rw [h3p]
        rfl
      rw [hf2]
      simp only [Bool.false_eq_true, if_false]
      have hsub : ∀ (s : ShrinkSt), s.nodes = st.nodes → ∀ p',
          shrinkAddNode f hs s 2 p' = .fuelOut :=
        fun s hsn p' =>
          (ih s (by rw [hsn]; exact hn2) (by rw [hsn]; exact hn3)).1 p'
      rw [hsub]
      rfl

/-- Shrinking the hoisted cycle instance runs out of fuel at every fuel:
the root child `A` projects fine, but the next root child is the surviving
`X@1 ↔ Y@1` cycle. -/
theorem shrinkTree_cexCycle_diverges :
    ∀ f, shrinkTree f cexCycleHoisted.1 0 = .fuelOut := by
  intro f
  cases f with
  | zero => decide
  | succ f =>
    simp only [shrinkTree]
    have hvals : mapValues (getW cexCycleHoisted.1 0).dependencies = [7, 2, 6] := by
      decide
    rw [hvals]
    simp only [loopGo]
    have h7 : shrinkAddNode (f + 1) cexCycleHoisted.1
        { out := [{ name := (getW cexCycleHoisted.1 0).name,
                    references := setOfList (getW cexCycleHoisted.1 0).references,
                    dependencies := [] }],
          nodes := [(0, 0)] } 7 0 =
        .ok { out := [{ name := ".", references := ["workspace:."], dependencies := [1] },
                      { name := "A", references := ["1"], dependencies := [] }],
              nodes := [(0, 0)] } := by
      refine hres_mono_le
        (fun f => shrinkAddNode f cexCycleHoisted.1
          { out := [{ name := (getW cexCycleHoisted.1 0).name,
                      references := setOfList (getW cexCycleHoisted.1 0).references,
                      dependencies := [] }],
            nodes := [(0, 0)] } 7 0)
        (fun f r hr h => shrinkAddNode_mono f cexCycleHoisted.1 _ 7 0 r hr h)
        1 (f + 1) (Nat.succ_le_succ (Nat.zero_le f)) _ (by intro hh; cases hh) (by decide)
    rw [h7]
    dsimp only
    have hdiv := shrinkAddNode_cycle_diverges cexCycleHoisted.1 (by decide) (by decide)
      (by decide) (by decide) (f + 1)
      { out := [{ name := ".", references := ["workspace:."], dependencies := [1] },
                { name := "A", references := ["1"], dependencies := [] }],
        nodes := [(0, 0)] } (by decide) (by decide)
    rw [hdiv.1 0]


/-- `hoist` on the cycle instance runs out of fuel at every fuel: the clone,
ancestor map and hoist phases converge (monotone in fuel, with canonical
values fixed at fuel 40), and the final shrink phase diverges on the
surviving non-peer cycle. -/
theorem hoist_cexCycle_fuelOut :
    ∀ fuel, (hoist fuel cexCycleHS 0 optsNone none).1 = .fuelOut := by
  have hcloneMono := hres_mono_le (fun f => cloneTree f cexCycleHS 0)
    (fun f r hr h => cloneTree_mono f cexCycleHS 0 r hr h)
  have hclone40 : cloneTree 40 cexCycleHS 0 = .ok cexCycleClone := by decide
  intro fuel
  simp only [hoist]
  cases hc : cloneTree fuel cexCycleHS 0 with
  | fuelOut => rfl
  | thrown e =>
    have h1 := hcloneMono fuel (fuel + 40) (Nat.le_add_right _ _) _
      (by intro hh; cases hh) hc
    have h2 := hcloneMono 40 (fuel + 40) (Nat.le_add_left _ _) _
      (by intro hh; cases hh) hclone40
    cases h1.symm.trans h2
  | ok v =>
    have h1 := hcloneMono fuel (fuel + 40) (Nat.le_add_right _ _) _
      (by intro hh; cases hh) hc
    have h2 := hcloneMono 40 (fuel + 40) (Nat.le_add_left _ _) _
      (by intro hh; cases hh) hclone40
    have hv : v = cexCycleClone := by
      have h7 := h1.symm.trans h2
      injection h7
    obtain ⟨hs1, tw, mm⟩ := v
    have hhs1 : hs1 = cexCycleClone.1 := congrArg Prod.fst hv
    have htw : tw = cexCycleClone.2.1 := congrArg (fun p => p.2.1) hv
    dsimp only
    rw [hhs1, htw, show cexCycleClone.2.1 = 0 from by decide]
    have hamapMono := hres_mono_le (fun f => buildAncestorMap f cexCycleClone.1 0)
      (fun f r hr h => buildAncestorMap_mono f cexCycleClone.1 0 r hr h)
    have hamap40 : buildAncestorMap 40 cexCycleClone.1 0 = .ok cexCycleAmapRun := by
      decide
    cases hb : buildAncestorMap fuel cexCycleClone.1 0 with
    | fuelOut => rfl
    | thrown e =>
      have h3 := hamapMono fuel (fuel + 40) (Nat.le_add_right _ _) _
        (by intro hh; cases hh) hb
      have h4 := hamapMono 40 (fuel + 40) (Nat.le_add_left _ _) _
        (by intro hh; cases hh) hamap40
      cases h3.symm.trans h4
    | ok am =>
      have h3 := hamapMono fuel (fuel + 40) (Nat.le_add_right _ _) _
        (by intro hh; cases hh) hb
      have h4 := hamapMono 40 (fuel + 40) (Nat.le_add_left _ _) _
        (by intro hh; cases hh) hamap40
      have ham : am = cexCycleAmapRun := by
        have h7 := h3.symm.trans h4
        injection h7
      subst ham
      dsimp only
      rw [show ({ check := optsNone.check.getD false ||
                      decide (effectiveDebugLevel optsNone.debugLevel none ≥ 9),
                  debugLevel := effectiveDebugLevel optsNone.debugLevel none } :
          HOptions) = cexCycleOpts from by decide]
      have htMono := hres_mono_le
        (fun f => hoistTo f cexCycleClone.1 0 0 [0] [] cexCycleAmapRun cexCycleOpts [])
        (fun f r hr h => hoistTo_mono f cexCycleClone.1 0 0 [0] [] cexCycleAmapRun
          cexCycleOpts [] (by decide) r hr h)
      have hht40 : hoistTo 40 cexCycleClone.1 0 0 [0] [] cexCycleAmapRun cexCycleOpts []
          = .ok cexCycleHoisted := by decide
      cases ht : hoistTo fuel cexCycleClone.1 0 0 [0] [] cexCycleAmapRun
          cexCycleOpts [] with
      | fuelOut => rfl
      | thrown e =>
        have h5 := htMono fuel (fuel + 40) (Nat.le_add_right _ _) _
          (by intro hh; cases hh) ht
        have h6 := htMono 40 (fuel + 40) (Nat.le_add_left _ _) _
          (by intro hh; cases hh) hht40
        cases h5.symm.trans h6
      | ok w =>
        have h5 := htMono fuel (fuel + 40) (Nat.le_add_right _ _) _
          (by intro hh; cases hh) ht
        have h6 := htMono 40 (fuel + 40) (Nat.le_add_left _ _) _
          (by intro hh; cases hh) hht40
        have hw : w = cexCycleHoisted := by
          have h7 := h5.symm.trans h6
          injection h7
        obtain ⟨hs2, sn, pt⟩ := w
        have hhs2 : hs2 = cexCycleHoisted.1 := congrArg Prod.fst hw
        dsimp only
        rw [hhs2]
        rw [if_neg (show ¬(effectiveDebugLevel optsNone.debugLevel none ≥ 1) from
          by decide)]
        rw [shrinkTree_cexCycle_diverges fuel]

/-- **C1.** Refuting the termination claim: on the finite cyclic input
`cexCycleHS` (a non-peer cycle `X@1 ↔ Y@1` whose promotions are blocked by
name-conflict decoys), `hoist` runs out of fuel at every fuel — the
shrinker's memo is never extended beyond the root, so shrinking the
surviving cycle recurses forever and `hoist` does not terminate. -/
theorem hoist_cycle_runs_forever :
    ∀ fuel, (hoist fuel cexCycleHS 0 optsNone none).1 = .fuelOut :=
  fun fuel => hoist_cexCycle_fuelOut fuel

/-- **C9.** Refuting the safety claim that `hoist` returns a result when
check is disabled and the debug level is below 1: on the finite cyclic
input `cexCycleHS` with those options, `hoist` never produces a normal
return at any fuel (it diverges in the shrink phase). -/
theorem hoist_cycle_never_returns :
    ∀ fuel, ((hoist fuel cexCycleHS 0 optsNone none).1).isOk = false := by
  intro fuel
  rw [hoist_cexCycle_fuelOut fuel]
  rfl

end Hoist
